import Mathlib

/-!
Shallow embedding of the domx HTML tokenizer (src/parser.rs) and DOM arena
(src/dom.rs).  Bytes are modelled as Nat, Rust Vec<u8> as List Nat, Rust
String as the list of its bytes.  A Rust panic (unwrap on None/Err, index
out of range, explicit panic!) is modelled as an Except error of kind
PanicKind; Rust Result Err values that are returned to callers are modelled
separately where they occur.  Unbounded loops are modelled with explicit
fuel, a fuel-exhausted run returning none.
-/

set_option maxRecDepth 4000
set_option synthInstance.maxSize 2000
set_option synthInstance.maxHeartbeats 2000000

/-- Modelled from the spec: the closed enumeration of recognized element
names ("Tag enumeration", spec section 2 and 6) together with its
case-insensitive string-to-enumeration resolution and its lowercase-name
rendering; the file tag.rs that defines it is not among the provided
sources.  Only tags exercised by the spec, tests and examples are listed;
the set is closed, so any other name fails to resolve. -/
inductive Tag where
  | html
  | headTag
  | title
  | body
  | h1
  | p
  | b
  | script
  | style
  | divTag
  | img
  | optionTag
  | header
deriving DecidableEq

/-- Modelled from the spec: the lowercase name bytes of each recognized tag
(Display impl of the external Tag enumeration). -/
def tagBytes : Tag → List Nat
  | .html => [104, 116, 109, 108]
  | .headTag => [104, 101, 97, 100]
  | .title => [116, 105, 116, 108, 101]
  | .body => [98, 111, 100, 121]
  | .h1 => [104, 49]
  | .p => [112]
  | .b => [98]
  | .script => [115, 99, 114, 105, 112, 116]
  | .style => [115, 116, 121, 108, 101]
  | .divTag => [100, 105, 118]
  | .img => [105, 109, 103]
  | .optionTag => [111, 112, 116, 105, 111, 110]
  | .header => [104, 101, 97, 100, 101, 114]

def allTags : List Tag :=
  [.html, .headTag, .title, .body, .h1, .p, .b, .script, .style, .divTag,
   .img, .optionTag, .header]

/-- Modelled from the spec: resolution of an (already lowercased) element
name to a recognized tag; parse::<Tag>() of the external Tag enumeration. -/
def tagResolve (name : List Nat) : Option Tag :=
  allTags.find? (fun t => tagBytes t = name)

/-- ASCII lowercasing of one byte (String::to_lowercase on the ASCII tag
names that can ever resolve). -/
def lowerByte (x : Nat) : Nat := if 65 ≤ x ∧ x ≤ 90 then x + 32 else x

/-- attribute.rs: struct Attribute, name and value byte vectors. -/
structure Attribute where
  name : List Nat
  value : List Nat
deriving DecidableEq

/-- attribute.rs: Attribute::is_boolean. -/
def Attribute.isBoolean (a : Attribute) : Bool := a.value.length = 0

/-- parser.rs: struct ParserTag (the in-progress tag accumulator).
The field data is named pdata here. -/
structure PTag where
  name : List Nat
  id : Option Tag
  closing : Bool
  pdata : List Nat
  attributes : List Attribute
deriving DecidableEq

/-- parser.rs: enum ParserState. -/
inductive PState where
  | findTag
  | skipComment
  | readTagName
  | readData
  | readRawData
  | readAttrName
  | readAttrValue
deriving DecidableEq

/-- The ways the Rust code can abort the process: the explicit panic! /
Result::unwrap on tag resolution failure, a Vec index out of range, and
Option::unwrap on None. -/
inductive PanicKind where
  | unknownTag
  | indexRange
  | unwrapNone
deriving DecidableEq

/-- parser.rs: trait IsParser, the three callbacks; a callback may itself
panic (the Dom implementation can), hence the Except. -/
structure Handler (σ : Type) where
  starttag : σ → Tag → List Attribute → Except PanicKind σ
  endtag : σ → Tag → Except PanicKind σ
  hdata : σ → List Nat → Except PanicKind σ

/-- Result of one state-handler invocation: bytes consumed, updated tag
accumulator, next state, updated handler state. -/
abbrev StepRes (σ : Type) := Except PanicKind (Nat × PTag × PState × σ)

/-- Add one consumed byte to a state-handler result (the processed += 1
bookkeeping of the Rust loops). -/
def bump {σ : Type} (r : StepRes σ) : StepRes σ :=
  match r with
  | .error e => .error e
  | .ok (n, t, s, st) => .ok (n + 1, t, s, st)

/-- parser.rs: Parser::_state_find_tag.  Scans for 60 ('<'); on finding it,
resets the tag accumulator and transitions to ReadParserTagName without
consuming the 60; otherwise consumes everything. -/
def stFindTag : List Nat → PTag → Nat × PTag × PState
  | [], tag => (0, tag, .findTag)
  | x :: rest, tag =>
    if x = 60 then
      (0, { tag with name := [], id := none, pdata := [], closing := false },
       .readTagName)
    else
      let r := stFindTag rest tag
      (r.1 + 1, r.2)

/-- parser.rs: Parser::_state_skip_comment.  Needs 3 bytes of lookahead;
consumes through 45 45 62 ("-->") and transitions to ReadData; with fewer
than 3 bytes left it consumes nothing. -/
def stSkipComment : List Nat → Nat × PState
  | x0 :: x1 :: x2 :: rest =>
    if x0 = 45 ∧ x1 = 45 ∧ x2 = 62 then (3, .readData)
    else
      let r := stSkipComment (x1 :: x2 :: rest)
      (r.1 + 1, r.2)
  | _ => (0, .skipComment)

/-- parser.rs: Parser::_state_read_tag_name.  On 33 ('!') the Rust code
first does processed += 1 and then reads buf[processed]; when the 33 is the
last byte of the buffer that read is out of range. -/
def stReadTagName : List Nat → PTag → Except PanicKind (Nat × PTag × PState)
  | [], tag => .ok (0, tag, .readTagName)
  | x :: rest, tag =>
    if x = 60 ∨ x = 13 ∨ x = 10 then
      match stReadTagName rest tag with
      | .error e => .error e
      | .ok (n, t, s) => .ok (n + 1, t, s)
    else if x = 33 then
      match rest with
      | [] => .error .indexRange
      | r :: _ => .ok (1, tag, if r = 45 then .skipComment else .findTag)
    else if x = 47 then
      match stReadTagName rest { tag with closing := true } with
      | .error e => .error e
      | .ok (n, t, s) => .ok (n + 1, t, s)
    else if x = 62 ∨ x = 32 then
      .ok (0, { tag with attributes := [⟨[], []⟩] }, .readAttrName)
    else
      match stReadTagName rest { tag with name := tag.name ++ [x] } with
      | .error e => .error e
      | .ok (n, t, s) => .ok (n + 1, t, s)

/-- parser.rs: Parser::_is_element.  buf is the remaining input starting at
the current byte; Err () means insufficient lookahead. -/
def isElement (buf : List Nat) (el : Option Tag) : Except Unit Bool :=
  match el with
  | none => .ok false
  | some t0 =>
    let t := tagBytes t0
    if buf.length < t.length + 3 then .error ()
    else
      match buf with
      | _ :: x1 :: _ =>
        let cmp := if x1 = 47 then (buf.drop 2).take t.length
                   else buf.take t.length
        .ok (decide (t = cmp))
      | _ => .error ()

/-- parser.rs: Parser::_state_read_data.  Accumulates bytes into tag.data
until 60 ('<'); at the 60 it emits the accumulated data (if nonempty) and
transitions to FindParserTag without consuming the 60. -/
def stReadData {σ : Type} (h : Handler σ) :
    List Nat → PTag → σ → StepRes σ
  | [], tag, st => .ok (0, tag, .readData, st)
  | x :: rest, tag, st =>
    if x = 60 then
      if tag.pdata.length > 0 then
        match h.hdata st tag.pdata with
        | .error e => .error e
        | .ok st' => .ok (0, tag, .findTag, st')
      else .ok (0, tag, .findTag, st)
    else
      bump (stReadData h rest { tag with pdata := tag.pdata ++ [x] } st)

/-- parser.rs: Parser::_state_read_raw_data.  At each 60 ('<') it tests
_is_element on the remaining buffer: Err breaks (awaits more input), Ok
true emits accumulated data and returns to FindParserTag, Ok false treats
the 60 as literal data. -/
def stReadRawData {σ : Type} (h : Handler σ) :
    List Nat → PTag → σ → StepRes σ
  | [], tag, st => .ok (0, tag, .readRawData, st)
  | x :: rest, tag, st =>
    if x = 60 then
      match isElement (x :: rest) tag.id with
      | .error _ => .ok (0, tag, .readRawData, st)
      | .ok true =>
        if tag.pdata.length > 0 then
          match h.hdata st tag.pdata with
          | .error e => .error e
          | .ok st' => .ok (0, tag, .findTag, st')
        else .ok (0, tag, .findTag, st)
      | .ok false =>
        bump (stReadRawData h rest { tag with pdata := tag.pdata ++ [x] } st)
    else
      bump (stReadRawData h rest { tag with pdata := tag.pdata ++ [x] } st)

/-- parser.rs: Parser::_state_read_attribute_value.  62 ('>') finalizes the
tag (pop empty trailing placeholder, resolve the lowercased name - unwrap
panics on failure -, fire the callback, clear attributes); 34/39 (quotes)
and 32 (space) end a value under the quoting rules; other bytes accumulate
into the current value. -/
def stReadAttrValue {σ : Type} (h : Handler σ) :
    List Nat → PTag → σ → StepRes σ
  | [], tag, st => .ok (0, tag, .readAttrValue, st)
  | x :: rest, tag, st =>
    if x = 62 then
      match tag.attributes.getLast? with
      | none => .error .unwrapNone
      | some la =>
        let attrs1 := if la.name = [] then tag.attributes.dropLast
                      else tag.attributes
        match tagResolve (tag.name.map lowerByte) with
        | none => .error .unknownTag
        | some t =>
          let tag1 := { tag with id := some t, attributes := attrs1 }
          if tag1.closing then
            match h.endtag st t with
            | .error e => .error e
            | .ok st' => .ok (1, { tag1 with attributes := [] }, .readData, st')
          else
            match h.starttag st t attrs1 with
            | .error e => .error e
            | .ok st' =>
              .ok (1, { tag1 with attributes := [] },
                   if t = Tag.script ∨ t = Tag.style then PState.readRawData
                   else PState.readData, st')
    else if x = 34 ∨ x = 39 then
      match tag.attributes.getLast? with
      | none => .error .unwrapNone
      | some la =>
        if la.value ≠ [] then
          let v1 := if la.value ≠ [] ∧
                       (la.value.head? = some 39 ∨ la.value.head? = some 34)
                    then la.value.drop 1 else la.value
          let v2 := if v1 ≠ [] ∧ (v1.getLast? = some 39 ∨ v1.getLast? = some 34)
                    then v1.dropLast else v1
          .ok (1, { tag with attributes :=
                      tag.attributes.dropLast ++ [{ la with value := v2 }, ⟨[], []⟩] },
               .readAttrName, st)
        else
          bump (stReadAttrValue h rest
                 { tag with attributes :=
                     tag.attributes.dropLast ++ [{ la with value := la.value ++ [x] }] } st)
    else if x = 32 then
      match tag.attributes.getLast? with
      | none => .error .unwrapNone
      | some la =>
        let haveValue := la.value ≠ []
        let quoted := la.value.head? = some 34 ∨ la.value.head? = some 39
        if haveValue ∧ ¬ quoted then
          .ok (1, { tag with attributes := tag.attributes ++ [⟨[], []⟩] },
               .readAttrName, st)
        else
          bump (stReadAttrValue h rest
                 { tag with attributes :=
                     tag.attributes.dropLast ++ [{ la with value := la.value ++ [x] }] } st)
    else
      match tag.attributes.getLast? with
      | none => .error .unwrapNone
      | some la =>
        bump (stReadAttrValue h rest
               { tag with attributes :=
                   tag.attributes.dropLast ++ [{ la with value := la.value ++ [x] }] } st)

/-- parser.rs: Parser::_state_read_attribute_name.  62/47 ('>','/')
finalizes the tag: pop an empty trailing placeholder, resolve the
lowercased name (explicit panic! on failure), fire the callback; for a
start tag only Tag::SCRIPT selects ReadRawData in this state.  61 ('=')
switches to ReadAttributeValue; 32 (space) closes a named attribute and
opens a placeholder; 10/13/9 are skipped; other bytes accumulate. -/
def stReadAttrName {σ : Type} (h : Handler σ) :
    List Nat → PTag → σ → StepRes σ
  | [], tag, st => .ok (0, tag, .readAttrName, st)
  | x :: rest, tag, st =>
    if x = 62 ∨ x = 47 then
      match tag.attributes.getLast? with
      | none => .error .unwrapNone
      | some la =>
        let attrs1 := if la.name = [] then tag.attributes.dropLast
                      else tag.attributes
        match tagResolve (tag.name.map lowerByte) with
        | none => .error .unknownTag
        | some t =>
          let tag1 := { tag with id := some t, attributes := attrs1 }
          if tag1.closing then
            match h.endtag st t with
            | .error e => .error e
            | .ok st' => .ok (1, tag1, .readData, st')
          else
            match h.starttag st t attrs1 with
            | .error e => .error e
            | .ok st' =>
              .ok (1, tag1,
                   if t = Tag.script then PState.readRawData else PState.readData,
                   st')
    else if x = 61 then .ok (1, tag, .readAttrValue, st)
    else if x = 32 then
      match tag.attributes.getLast? with
      | none => .error .unwrapNone
      | some la =>
        let attrs1 := if la.name ≠ [] then tag.attributes ++ [⟨[], []⟩]
                      else tag.attributes
        bump (stReadAttrName h rest { tag with attributes := attrs1 } st)
    else if x = 10 ∨ x = 13 ∨ x = 9 then
      bump (stReadAttrName h rest tag st)
    else
      match tag.attributes.getLast? with
      | none => .error .unwrapNone
      | some la =>
        bump (stReadAttrName h rest
               { tag with attributes :=
                   tag.attributes.dropLast ++ [{ la with name := la.name ++ [x] }] } st)

/-- One state-handler dispatch (the match in Parser::parse's inner loop). -/
def stepState {σ : Type} (h : Handler σ) (s : PState) (buf : List Nat)
    (tag : PTag) (st : σ) : StepRes σ :=
  match s with
  | .findTag =>
    let r := stFindTag buf tag
    .ok (r.1, r.2.1, r.2.2, st)
  | .skipComment =>
    let r := stSkipComment buf
    .ok (r.1, tag, r.2, st)
  | .readTagName =>
    match stReadTagName buf tag with
    | .error e => .error e
    | .ok (n, t, s') => .ok (n, t, s', st)
  | .readData => stReadData h buf tag st
  | .readRawData => stReadRawData h buf tag st
  | .readAttrName => stReadAttrName h buf tag st
  | .readAttrValue => stReadAttrValue h buf tag st

/-- parser.rs: the inner loop of Parser::parse.  Repeatedly invokes the
current state handler, drains the consumed prefix, and stops when a handler
consumes zero bytes or the buffer empties.  Each continuing iteration
consumes at least one byte, so fuel buf.length + 1 is always sufficient. -/
def innerLoop {σ : Type} (h : Handler σ) :
    Nat → PState → PTag → List Nat → σ →
    Except PanicKind (PState × PTag × List Nat × Nat × σ)
  | 0, s, tag, buf, st => .ok (s, tag, buf, 0, st)
  | fuel + 1, s, tag, buf, st =>
    match stepState h s buf tag st with
    | .error e => .error e
    | .ok (n, tag', s', st') =>
      if n = 0 then .ok (s', tag', buf, 0, st')
      else
        let buf' := buf.drop n
        if buf' = [] then .ok (s', tag', [], n, st')
        else
          match innerLoop h fuel s' tag' buf' st' with
          | .error e => .error e
          | .ok (s2, tag2, buf2, n2, st2) => .ok (s2, tag2, buf2, n + n2, st2)

/-- The mutable state of Parser::parse's outer loop.  The byte source is
modelled as the list of chunks successive read() calls return (each chunk
at most 2048 bytes in the Rust code); an empty chunk or an exhausted list
is a zero-byte read, which sets end_of_file permanently. -/
structure Config (σ : Type) where
  pstate : PState
  ptag : PTag
  buf : List Nat
  source : List (List Nat)
  eof : Bool
  total : Nat
  hstate : σ

/-- parser.rs: the outer loop of Parser::parse.  Refills the buffer when it
holds fewer than 64 bytes and the source is not exhausted, exits when the
buffer is empty, and otherwise runs the inner loop.  Fuel counts outer
iterations; none means the loop did not finish within the given fuel. -/
def outerLoop {σ : Type} (h : Handler σ) :
    Nat → Config σ → Option (Except PanicKind (Nat × σ))
  | 0, _ => none
  | fuel + 1, c =>
    let c1 : Config σ :=
      if ¬ c.eof ∧ c.buf.length < 64 then
        match c.source with
        | [] => { c with eof := true }
        | chunk :: rest =>
          if chunk = [] then { c with eof := true, source := rest }
          else { c with buf := c.buf ++ chunk, source := rest }
      else c
    if c1.buf.length = 0 then some (.ok (c1.total, c1.hstate))
    else
      match innerLoop h (c1.buf.length + 1) c1.pstate c1.ptag c1.buf c1.hstate with
      | .error e => some (.error e)
      | .ok (s', tag', buf', n, st') =>
        outerLoop h fuel
          { pstate := s', ptag := tag', buf := buf', source := c1.source,
            eof := c1.eof, total := c1.total + n, hstate := st' }

/-- The initial ParserTag of Parser::parse. -/
def initPTag : PTag := { name := [], id := none, closing := false, pdata := [], attributes := [] }

/-- parser.rs: Parser::parse, run with the given outer-loop fuel on the
given chunked byte source.  some (.ok (n, st)) is Ok(n) with final handler
state st, some (.error e) is a Rust panic, none means the outer loop did
not terminate within fuel iterations. -/
def parseFuel {σ : Type} (h : Handler σ) (init : σ) (fuel : Nat)
    (source : List (List Nat)) : Option (Except PanicKind (Nat × σ)) :=
  outerLoop h fuel
    { pstate := .findTag, ptag := initPTag, buf := [], source := source,
      eof := false, total := 0, hstate := init }

/-- The tokenizer events delivered to an IsParser handler. -/
inductive Event where
  | start (t : Tag) (attrs : List Attribute)
  | endT (t : Tag)
  | edata (bs : List Nat)
deriving DecidableEq

/-- A pure event-recording handler (like the Dummy handler of the parser
tests): it never panics. -/
def collector : Handler (List Event) where
  starttag := fun es t a => .ok (es ++ [.start t a])
  endtag := fun es t => .ok (es ++ [.endT t])
  hdata := fun es bs => .ok (es ++ [.edata bs])

/-- Parser::parse with the event-recording handler. -/
def tokenize (fuel : Nat) (source : List (List Nat)) :
    Option (Except PanicKind (Nat × List Event)) :=
  parseFuel collector [] fuel source

/-! ## The DOM arena (src/dom.rs) -/

/-- dom.rs: enum NodeData.  The Data payload keeps the UTF-8 bytes the
String was decoded from. -/
inductive NodeData where
  | element (tag : Tag) (attrs : List Attribute)
  | dataStr (bs : List Nat)
deriving DecidableEq

/-- dom.rs: struct Node. -/
structure Node where
  id : Nat
  parent : Option Nat
  children : List Nat
  data : Option NodeData
deriving DecidableEq

/-- dom.rs: struct Store, a growable vector of optional node slots. -/
structure Store where
  nodes : List (Option Node)
deriving DecidableEq

/-- The node in slot i, if the slot exists and is not tombstoned. -/
def nodeAt (s : Store) (i : Nat) : Option Node :=
  match s.nodes[i]? with
  | some (some n) => some n
  | _ => none

/-- dom.rs: Store::new, a single root slot (id 0, no parent, no payload). -/
def Store.new : Store :=
  ⟨[some { id := 0, parent := none, children := [], data := none }]⟩

/-- dom.rs: Store::is_node. -/
def Store.isNode (s : Store) (id : Nat) : Bool :=
  decide (id ≤ s.nodes.length - 1) && (nodeAt s id).isSome

/-- dom.rs: Store::add.  Pushes the node, computes id = len - 1, appends id
to the parent's child list, then records id in the node itself.  none is
the Rust panic (parent is None, or the parent slot is missing or
tombstoned). -/
def Store.add (s : Store) (node : Node) : Option (Store × Nat) :=
  match node.parent with
  | none => none
  | some parent =>
    let nodes1 := s.nodes ++ [some node]
    let id := nodes1.length - 1
    match nodes1[parent]? with
    | some (some pn) =>
      let nodes2 := nodes1.set parent (some { pn with children := pn.children ++ [id] })
      match nodes2[id]? with
      | some (some n) => some (⟨nodes2.set id (some { n with id := id })⟩, id)
      | _ => none
    | _ => none

/-- dom.rs: Store::new_node_with_parent.  none is the Err(()) returned for
an invalid parent (Store::add cannot panic after the is_node check). -/
def Store.newNodeWithParent (s : Store) (parent : Nat) : Option (Store × Nat) :=
  if s.isNode parent then
    s.add { id := 0, parent := some parent, children := [], data := none }
  else none

/-- dom.rs: Store::_recurse_remove_node, with its loop over the child list
written as a foldr: the collected removal order for id is
collect(child 1) ++ ... ++ collect(child k) ++ [id]; a tombstoned slot
contributes just [id] and a missing slot is the Rust index panic.  fuel
bounds the recursion depth (none on exhaustion, which cannot happen on
well-formed stores with fuel = number of slots). -/
def Store.recRemOne (s : Store) : Nat → Nat → Option (List Nat)
  | 0, _ => none
  | fuel + 1, id =>
    match s.nodes[id]? with
    | none => none
    | some none => some [id]
    | some (some n) =>
      match n.children.foldr (fun c acc =>
          match acc, s.recRemOne fuel c with
          | some r, some sub => some (sub ++ r)
          | _, _ => none) (some []) with
      | none => none
      | some sub => some (sub ++ [id])

/-- The child-list loop of _recurse_remove_node on its own: the
concatenated collections of a list of roots at the given depth budget. -/
def Store.recRemAll (s : Store) (fuel : Nat) (l : List Nat) : Option (List Nat) :=
  l.foldr (fun c acc =>
      match acc, s.recRemOne fuel c with
      | some r, some sub => some (sub ++ r)
      | _, _ => none) (some [])

/-- One iteration of the removal loop in dom.rs Store::remove: detach nid
from its parent's child list (retain x != nid) and tombstone nid's slot.
none is the Rust panic (nid's slot or its parent missing/tombstoned, or a
parent of None). -/
def detachTomb (s : Store) (nid : Nat) : Option Store :=
  match nodeAt s nid with
  | none => none
  | some n =>
    match n.parent with
    | none => none
    | some pid =>
      match nodeAt s pid with
      | none => none
      | some pn =>
        let s1 : Store := ⟨s.nodes.set pid (some { pn with children := pn.children.filter (fun x => x ≠ nid) })⟩
        some ⟨s1.nodes.set nid none⟩

/-- The removal loop of dom.rs Store::remove over the collected list. -/
def removeAll : Store → List Nat → Option Store
  | s, [] => some s
  | s, nid :: rest =>
    match detachTomb s nid with
    | none => none
    | some s' => removeAll s' rest

/-- dom.rs: Store::remove.  No-op when id is not a live node; otherwise
collects the subtree children-before-self and detaches/tombstones each
collected id in order.  none is a Rust panic (or fuel exhaustion of the
collection, which cannot happen on well-formed stores). -/
def Store.remove (s : Store) (id : Nat) : Option Store :=
  if s.isNode id = false then some s
  else
    match s.recRemOne s.nodes.length id with
    | none => none
    | some l => removeAll s l

/-- dom.rs: Store::len, the number of non-tombstoned slots. -/
def Store.len (s : Store) : Nat :=
  s.nodes.countP (fun n => n.isSome)

/-- dom.rs: Store::_recurse, with its loop over the child list written as
a foldr: the pre-order visit list (id, level) below the given node - enter
is called on each child (one (c, level) pair) before recursing into it at
level + 1; a tombstoned node contributes nothing below it; a missing slot
is the Rust index panic.  fuel bounds the recursion depth. -/
def Store.recurseNode (s : Store) : Nat → Nat → Nat → Option (List (Nat × Nat))
  | 0, _, _ => none
  | fuel + 1, level, id =>
    match s.nodes[id]? with
    | none => none
    | some none => some []
    | some (some n) =>
      n.children.foldr (fun c acc =>
        match acc, s.recurseNode fuel (level + 1) c with
        | some r, some sub => some ((c, level) :: sub ++ r)
        | _, _ => none) (some [])

/-- dom.rs: Store::recurse from a given root (enter is never called on the
root itself); no-op when the root is not a live node. -/
def Store.recurse (s : Store) (id : Nat) : Option (List (Nat × Nat)) :=
  if s.isNode id then s.recurseNode s.nodes.length 0 id
  else some []

/-- The collection pass of dom.rs Store::retain: for each visited id, look
the node up (unwrap - none on a tombstoned or missing slot, which cannot
happen during the pure traversal) and record it when keep is false. -/
def collectFails (s : Store) (keep : Node → Bool) : List (Nat × Nat) → Option (List Nat)
  | [] => some []
  | (id, _) :: rest =>
    match nodeAt s id with
    | none => none
    | some n =>
      match collectFails s keep rest with
      | none => none
      | some r => some (if keep n = false then id :: r else r)

/-- The second pass of dom.rs Store::retain: remove each collected id. -/
def removeEach : Store → List Nat → Option Store
  | s, [] => some s
  | s, id :: rest =>
    match s.remove id with
    | none => none
    | some s' => removeEach s' rest

/-- dom.rs: Store::retain - pre-order traversal from the root, collect the
ids failing the predicate, then remove each. -/
def Store.retain (s : Store) (keep : Node → Bool) : Option Store :=
  match s.recurse 0 with
  | none => none
  | some vis =>
    match collectFails s keep vis with
    | none => none
    | some l => removeEach s l

/-! ## The DOM tree builder (dom.rs: struct Dom) -/

/-- dom.rs: struct Dom - the arena plus the open-element cursor. -/
structure Dom where
  store : Store
  current : Option Nat
deriving DecidableEq

/-- dom.rs: Dom::new. -/
def Dom.new : Dom := ⟨Store.new, none⟩

/-- dom.rs: Dom::len (the store's live count without the root sentinel). -/
def Dom.len (d : Dom) : Nat := d.store.len - 1

/-- dom.rs: Dom's IsParser::handle_starttag - insert under the cursor (or
root), attach the element payload, move the cursor to the new node.  The
unwrap on new_node_with_parent's Err and on the new slot are panics. -/
def Dom.handleStarttag (d : Dom) (t : Tag) (attrs : List Attribute) : Except PanicKind Dom :=
  let parent := match d.current with
                | some x => x
                | none => 0
  match d.store.newNodeWithParent parent with
  | none => .error .unwrapNone
  | some (s', id) =>
    match nodeAt s' id with
    | none => .error .unwrapNone
    | some n =>
      .ok ⟨⟨s'.nodes.set id (some { n with data := some (.element t attrs) })⟩, some id⟩

/-- dom.rs: Dom's IsParser::handle_endtag - move the cursor to the current
node's parent.  self.current.unwrap() panics when no element is open. -/
def Dom.handleEndtag (d : Dom) (_t : Tag) : Except PanicKind Dom :=
  match d.current with
  | none => .error .unwrapNone
  | some cur =>
    match nodeAt d.store cur with
    | none => .error .unwrapNone
    | some n => .ok ⟨d.store, n.parent⟩

/-- dom.rs: Dom's IsParser::handle_data - insert a data leaf under the
cursor (or root); the cursor does not move.  (The UTF-8 decoding is kept as
the raw bytes; its validity unwrap is not modelled.) -/
def Dom.handleData (d : Dom) (bs : List Nat) : Except PanicKind Dom :=
  let parent := match d.current with
                | some x => x
                | none => 0
  match d.store.newNodeWithParent parent with
  | none => .error .unwrapNone
  | some (s', id) =>
    match nodeAt s' id with
    | none => .error .unwrapNone
    | some n =>
      .ok ⟨⟨s'.nodes.set id (some { n with data := some (.dataStr bs) })⟩, d.current⟩

/-- The Dom as an IsParser handler. -/
def domHandler : Handler Dom where
  starttag := Dom.handleStarttag
  endtag := Dom.handleEndtag
  hdata := Dom.handleData

/-- dom.rs: Dom::parse - Parser::parse with the Dom itself as handler. -/
def Dom.parse (fuel : Nat) (source : List (List Nat)) :
    Option (Except PanicKind (Nat × Dom)) :=
  parseFuel domHandler Dom.new fuel source

/-! ## Concrete inputs used by the claims -/

/-- The bytes of a truncated trailing comment: "<!-". -/
def truncCommentInput : List Nat := [60, 33, 45]

/-- The bytes of "<foo>", a tag whose name resolves to no recognized tag. -/
def unknownTagInput : List Nat := [60, 102, 111, 111, 62]

/-- The bytes of "</p>", an input whose first tag is a closing tag. -/
def strayCloseInput : List Nat := [60, 47, 112, 62]

/-- The bytes of "<!", a buffer ending exactly after "<!". -/
def bangEndInput : List Nat := [60, 33]

/-- The bytes of "<style>a<b>c</b>d</style>". -/
def styleInput : List Nat :=
  [60, 115, 116, 121, 108, 101, 62, 97, 60, 98, 62, 99, 60, 47, 98, 62,
   100, 60, 47, 115, 116, 121, 108, 101, 62]

/-- The bytes of "<script>if (a<b) \x7b\x7d</script>". -/
def scriptInput : List Nat :=
  [60, 115, 99, 114, 105, 112, 116, 62,
   105, 102, 32, 40, 97, 60, 98, 41, 32, 123, 125,
   60, 47, 115, 99, 114, 105, 112, 116, 62]

/-- The bytes of "if (a<b) \x7b\x7d" (the script content). -/
def scriptContent : List Nat := [105, 102, 32, 40, 97, 60, 98, 41, 32, 123, 125]

/-! ## C1: termination of Parser::parse on truncated trailing constructs -/

/-- The outer-loop configuration after the initial read of "<!-"
(iteration 1: the refill pulls the whole chunk, FindParserTag consumes
nothing and switches to ReadParserTagName). -/
def c1cfg1 : Config (List Event) :=
  { pstate := .readTagName, ptag := initPTag, buf := truncCommentInput,
    source := [], eof := false, total := 0, hstate := [] }

/-- The configuration after iteration 2 on "<!-": the empty read sets
end_of_file, ReadParserTagName consumes "<!" and switches to SkipComment,
which then cannot make progress on the single remaining byte 45. -/
def c1cfg2 : Config (List Event) :=
  { pstate := .skipComment, ptag := initPTag, buf := [45],
    source := [], eof := true, total := 2, hstate := [] }

theorem c1_step0 (n : Nat) :
    tokenize (n + 1) [truncCommentInput] = outerLoop collector n c1cfg1 := rfl

theorem c1_step1 (n : Nat) :
    outerLoop collector (n + 1) c1cfg1 = outerLoop collector n c1cfg2 := rfl

theorem c1_stuck (n : Nat) :
    outerLoop collector (n + 1) c1cfg2 = outerLoop collector n c1cfg2 := rfl

theorem c1_stuck_none : ∀ n, outerLoop collector n c1cfg2 = none := by
  intro n
  induction n with
  | zero => rfl
  | succ k ih => rw [c1_stuck, ih]

/-- Claim C1: FALSIFIED BY THE CODE.  The claim (and the spec) state that
when the source is exhausted and the active state handler can no longer
make progress, Parser::parse's outer loop terminates, dropping the
unterminated trailing construct.  In fact the outer loop has no such exit:
its only break is on an empty buffer, so on the input "<!-" (a truncated
trailing comment, SkipComment holding one byte at end of file) the loop
spins forever - no amount of fuel makes the run return. -/
theorem c1_parse_loops_on_truncated_comment :
    ∀ fuel, tokenize fuel [truncCommentInput] = none := by
  intro fuel
  match fuel with
  | 0 => rfl
  | 1 => rfl
  | n + 2 =>
    rw [c1_step0, c1_step1, c1_stuck_none]

/-! ## C2: unknown tag aborts via panic, not an error value -/

/-- Claim C2 counterexample: on "<foo>" the tokenizer does not fail with an
UnknownTag error value reporting the bytes consumed before the tag - it
aborts with the panic! / unwrap of parser.rs lines 372-374 (modelled as
PanicKind.unknownTag, which carries no byte count at all). -/
theorem c2_unknown_tag_panics :
    tokenize 60 [unknownTagInput] = some (.error .unknownTag) := rfl

/-- Claim C2 (amended): an unrecognized tag name makes Parser::parse abort
through the explicit panic!/unwrap rather than return an error value; every
sufficiently fuelled run of the tokenizer on "<foo>" ends in that panic,
and no run ever produces an Ok result. -/
theorem c2_unknown_tag_always_panics :
    ∀ fuel res, tokenize fuel [unknownTagInput] = some res →
      res = .error .unknownTag := by
  intro fuel res h
  match fuel with
  | 0 => exact absurd h (by simp [tokenize, parseFuel, outerLoop])
  | 1 =>
    have e : tokenize 1 [unknownTagInput] = none := rfl
    rw [e] at h; cases h
  | n + 2 =>
    have e : tokenize (n + 2) [unknownTagInput] = some (.error .unknownTag) := rfl
    rw [e] at h
    injection h with h
    exact h.symm

theorem c2_unknown_tag_always_panics_witness :
    Except.error PanicKind.unknownTag =
      (Except.error PanicKind.unknownTag : Except PanicKind (Nat × List Event)) :=
  c2_unknown_tag_always_panics 60 (.error .unknownTag) c2_unknown_tag_panics

/-! ## C3: an end tag with no open element -/

/-- Claim C3: FALSIFIED BY THE CODE.  Dom::handle_endtag does
self.current.unwrap() (dom.rs line 473); when the very first tag of the
input is a closing tag the cursor is still None and Dom::parse panics
instead of tolerating the stray closer. -/
theorem c3_stray_close_panics :
    Dom.parse 20 [strayCloseInput] = some (.error .unwrapNone) := rfl

/-! ## C4: buffer access beyond the end in _state_read_tag_name -/

/-- Claim C4: FALSIFIED BY THE CODE.  When 33 ('!') is the last byte of the
buffer, _state_read_tag_name increments processed and then reads
buf[processed], one past the end - an index-out-of-range panic.  On the
two-byte source "<!" Parser::parse panics. -/
theorem c4_bang_at_end_panics :
    tokenize 10 [bangEndInput] = some (.error .indexRange) := rfl

/-- The step-level witness of the same fact: _state_read_tag_name on the
buffer "<!" itself signals the out-of-range access. -/
theorem c4_step_reads_out_of_range :
    stReadTagName bangEndInput initPTag = .error .indexRange := rfl

/-! ## C5: "<style>" finalized in ReadAttributeName does not enter raw mode -/

/-- Claim C5: FALSIFIED BY THE CODE.  _state_read_attribute_name (parser.rs
lines 380-383) maps only Tag::SCRIPT to ReadRawData, so a start tag
"<style>" whose '>' is consumed in ReadAttributeName transitions to
ReadData: the style content is re-tokenized as markup.  On
"<style>a<b>c</b>d</style>" the tokenizer emits a start-tag event for the
embedded "<b>" instead of one raw data event. -/
theorem c5_style_not_raw :
    tokenize 60 [styleInput] =
      some (.ok (25,
        [.start .style [], .edata [97], .start .b [], .edata [99],
         .endT .b, .edata [100], .endT .style])) := rfl

/-- The step-level form: finalizing a start tag named "style" in state
ReadAttributeName yields ReadData, not ReadRawData. -/
theorem c5_attr_name_style_to_read_data :
    stReadAttrName collector [62]
      { name := [115, 116, 121, 108, 101], id := none, closing := false,
        pdata := [], attributes := [⟨[], []⟩] } [] =
      .ok (1,
        { name := [115, 116, 121, 108, 101], id := some .style, closing := false,
          pdata := [], attributes := [] },
        .readData, [.start .style []]) := rfl

/-! ## C6: raw-text mode captures embedded '<' until the closing tag -/

deriving instance DecidableEq for Except

/-- A position in the raw-data scan at which _state_read_raw_data stops
consuming: the current byte is 60 ('<') and _is_element does not return
Ok(false) there (it either matches the closing tag or asks for more
input). -/
def scanStop (el : Option Tag) (l : List Nat) : Prop :=
  l.head? = some 60 ∧ isElement l el ≠ .ok false

instance (el : Option Tag) (l : List Nat) : Decidable (scanStop el l) := by
  unfold scanStop; infer_instance

/-- Characterization of one _state_read_raw_data invocation: if no byte of
the chunk ds is a stopping position and the closing-tag test succeeds right
after ds, the handler consumes exactly ds (every byte, 60s included, pushed
verbatim onto the accumulated data), emits the data, and transitions to
FindParserTag. -/
theorem rawScanChunk (ds : List Nat) :
    ∀ (rest : List Nat) (tag : PTag) (evs : List Event),
    tag.id = some Tag.script →
    (∀ i, i < ds.length → ¬ scanStop (some Tag.script) ((ds ++ rest).drop i)) →
    rest.head? = some 60 →
    isElement rest (some Tag.script) = .ok true →
    tag.pdata ++ ds ≠ [] →
    stReadRawData collector (ds ++ rest) tag evs =
      .ok (ds.length, { tag with pdata := tag.pdata ++ ds }, .findTag,
           evs ++ [.edata (tag.pdata ++ ds)]) := by
  induction ds with
  | nil =>
    intro rest tag evs hid hstop hhead helem hne
    obtain ⟨nm, tid, cl, pd, ats⟩ := tag
    simp only at hid hne ⊢
    subst hid
    rw [List.append_nil] at hne
    match rest, hhead with
    | 60 :: rrest, _ =>
      simp only [List.nil_append, stReadRawData, List.append_eq,
                 eq_self_iff_true, if_true, helem, List.append_nil]
      have hlen : pd.length > 0 := List.length_pos.mpr hne
      simp [hlen, collector]
  | cons d ds ih =>
    intro rest tag evs hid hstop hhead helem hne
    obtain ⟨nm, tid, cl, pd, ats⟩ := tag
    simp only at hid hne ⊢
    subst hid
    have h0 := hstop 0 (by simp)
    simp only [List.drop_zero, scanStop, List.cons_append, List.head?,
               not_and, not_not] at h0
    have hstop' : ∀ i, i < ds.length →
        ¬ scanStop (some Tag.script) ((ds ++ rest).drop i) := by
      intro i hi
      have := hstop (i + 1) (by simpa using Nat.succ_lt_succ hi)
      simpa [List.cons_append] using this
    by_cases hd : d = 60
    · subst hd
      have hfalse : isElement (60 :: (ds ++ rest)) (some Tag.script) = .ok false :=
        h0 rfl
      simp only [List.cons_append, stReadRawData, List.append_eq,
                 eq_self_iff_true, if_true, hfalse]
      rw [ih rest ⟨nm, some Tag.script, cl, pd ++ [60], ats⟩ evs rfl hstop' hhead helem
          (by simp)]
      simp [bump]
    · simp only [List.cons_append, stReadRawData, List.append_eq, if_neg hd]
      rw [ih rest ⟨nm, some Tag.script, cl, pd ++ [d], ats⟩ evs rfl hstop' hhead helem
          (by simp)]
      simp [bump]

/-- Claim C6: raw-text mode treats embedded 60 ('<') bytes as literal data
until the generated closing-tag token of the open raw element matches, and
only such a match ends accumulation.  Concretely, tokenizing
"<script>if (a<b) \x7b\x7d</script>" yields exactly one data event holding
"if (a<b) \x7b\x7d"; in general a content chunk with no stopping position,
followed by a matching closing-tag position, is consumed verbatim into one
data event. -/
theorem c6_raw_text_until_close (ds rest : List Nat) (tag : PTag) (evs : List Event)
    (hid : tag.id = some Tag.script) (hpd : tag.pdata = []) (hne : ds ≠ [])
    (hstop : ∀ i, i < ds.length → ¬ scanStop (some Tag.script) ((ds ++ rest).drop i))
    (hhead : rest.head? = some 60)
    (helem : isElement rest (some Tag.script) = .ok true) :
    tokenize 60 [scriptInput] =
        some (.ok (28, [.start .script [], .edata scriptContent, .endT .script])) ∧
    stReadRawData collector (ds ++ rest) tag evs =
      .ok (ds.length, { tag with pdata := ds }, .findTag, evs ++ [.edata ds]) := by
  constructor
  · rfl
  · have h := rawScanChunk ds rest tag evs hid hstop hhead helem
      (by rw [hpd]; simpa using hne)
    rw [hpd] at h
    simpa using h

theorem c6_raw_text_until_close_witness :
    tokenize 60 [scriptInput] =
        some (.ok (28, [.start .script [], .edata scriptContent, .endT .script])) ∧
    stReadRawData collector
        (scriptContent ++ [60, 47, 115, 99, 114, 105, 112, 116, 62])
        ⟨[115, 99, 114, 105, 112, 116], some .script, false, [], []⟩
        [.start .script []] =
      .ok (scriptContent.length,
           ⟨[115, 99, 114, 105, 112, 116], some .script, false, scriptContent, []⟩,
           .findTag, [.start .script [], .edata scriptContent]) :=
  c6_raw_text_until_close scriptContent [60, 47, 115, 99, 114, 105, 112, 116, 62]
    ⟨[115, 99, 114, 105, 112, 116], some .script, false, [], []⟩
    [.start .script []] rfl rfl (by decide) (by decide) rfl (by decide)

/-! ## Well-formedness of the arena -/

theorem opt_forall_iff {α : Type _} (o : Option α) (P : α → Prop) :
    (∀ a, o = some a → P a) ↔ (match o with | some a => P a | none => True) := by
  cases o <;> simp

instance {α : Type _} (o : Option α) (P : α → Prop) [∀ a, Decidable (P a)] :
    Decidable (∀ a, o = some a → P a) :=
  match o with
  | none => isTrue (by simp)
  | some a => decidable_of_iff (P a) (by simp)

theorem opt_exists_iff {α : Type _} (o : Option α) (P : α → Prop) :
    (∃ a, o = some a ∧ P a) ↔ (match o with | some a => P a | none => False) := by
  cases o <;> simp

instance {α : Type _} (o : Option α) (P : α → Prop) [∀ a, Decidable (P a)] :
    Decidable (∃ a, o = some a ∧ P a) :=
  match o with
  | none => isFalse (by simp)
  | some a => decidable_of_iff (P a) (by simp)

/-- The structural invariant of the arena (spec section 3): the root slot is
live with no parent; every live node records its own index; every live
non-root node names a live parent whose (duplicate-free) child list
contains it; every child of a live node is a live node with a larger index
whose parent field points back. -/
def WF (s : Store) : Prop :=
  (nodeAt s 0).isSome = true ∧
  ∀ i, i < s.nodes.length → ∀ n, nodeAt s i = some n →
    n.id = i ∧
    (i = 0 → n.parent = none) ∧
    (i ≠ 0 → ∃ p, n.parent = some p ∧ ∃ pn, nodeAt s p = some pn ∧ i ∈ pn.children) ∧
    n.children.Nodup ∧
    (∀ c, c ∈ n.children → i < c ∧ ∃ cn, nodeAt s c = some cn ∧ cn.parent = some i)

instance (s : Store) : Decidable (WF s) :=
  inferInstanceAs (Decidable
    ((nodeAt s 0).isSome = true ∧
     ∀ i, i < s.nodes.length → ∀ n, nodeAt s i = some n →
       n.id = i ∧
       (i = 0 → n.parent = none) ∧
       (i ≠ 0 → ∃ p, n.parent = some p ∧ ∃ pn, nodeAt s p = some pn ∧ i ∈ pn.children) ∧
       n.children.Nodup ∧
       (∀ c, c ∈ n.children → i < c ∧ ∃ cn, nodeAt s c = some cn ∧ cn.parent = some i)))

theorem nodeAt_eq_iff {s : Store} {i : Nat} {n : Node} :
    nodeAt s i = some n ↔ s.nodes[i]? = some (some n) := by
  unfold nodeAt
  match h : s.nodes[i]? with
  | none => simp
  | some none => simp
  | some (some m) => simp

theorem nodeAt_lt {s : Store} {i : Nat} {n : Node} (h : nodeAt s i = some n) :
    i < s.nodes.length := by
  rw [nodeAt_eq_iff] at h
  exact (List.getElem?_eq_some.mp h).1

theorem wf_field {s : Store} (hwf : WF s) {i : Nat} {n : Node}
    (h : nodeAt s i = some n) :
    n.id = i ∧
    (i = 0 → n.parent = none) ∧
    (i ≠ 0 → ∃ p, n.parent = some p ∧ ∃ pn, nodeAt s p = some pn ∧ i ∈ pn.children) ∧
    n.children.Nodup ∧
    (∀ c, c ∈ n.children → i < c ∧ ∃ cn, nodeAt s c = some cn ∧ cn.parent = some i) :=
  hwf.2 i (nodeAt_lt h) n h

/-- y lies in the subtree rooted at x (x itself included), following child
lists. -/
inductive Subt (s : Store) : Nat → Nat → Prop where
  | refl (x : Nat) : Subt s x x
  | child {x c y : Nat} (n : Node) : nodeAt s x = some n → c ∈ n.children →
      Subt s c y → Subt s x y

/-- The parent link of slot j (None for the root, a tombstoned or a missing
slot). -/
def parentOf (s : Store) (j : Nat) : Option Nat :=
  match nodeAt s j with
  | some n => n.parent
  | none => none

/-- a is a strict ancestor of j along parent links. -/
inductive Anc (s : Store) (a : Nat) : Nat → Prop where
  | base {j} : parentOf s j = some a → Anc s a j
  | step {j q} : parentOf s j = some q → Anc s a q → Anc s a j

theorem parentOf_eq {s : Store} {j : Nat} {n : Node} (h : nodeAt s j = some n) :
    parentOf s j = n.parent := by
  unfold parentOf; rw [h]

theorem parentOf_live {s : Store} {j p : Nat} (h : parentOf s j = some p) :
    ∃ n, nodeAt s j = some n := by
  unfold parentOf at h
  match hj : nodeAt s j with
  | none => rw [hj] at h; cases h
  | some n => exact ⟨n, rfl⟩

theorem wf_parent_lt {s : Store} (hwf : WF s) {j p : Nat}
    (hp : parentOf s j = some p) : p < j := by
  obtain ⟨n, hj⟩ := parentOf_live hp
  rw [parentOf_eq hj] at hp
  have hfields := wf_field hwf hj
  by_cases h0 : j = 0
  · subst h0; rw [hfields.2.1 rfl] at hp; cases hp
  · obtain ⟨q, hq, pn, hpn, hmem⟩ := hfields.2.2.1 h0
    rw [hq] at hp
    injection hp with hp
    subst hp
    exact ((wf_field hwf hpn).2.2.2.2 j hmem).1

theorem anc_lt {s : Store} (hwf : WF s) {a j : Nat} (h : Anc s a j) : a < j := by
  induction h with
  | base hp => exact wf_parent_lt hwf hp
  | step hp _ ih => exact lt_trans ih (wf_parent_lt hwf hp)

theorem anc_trans {s : Store} {a b j : Nat} (h1 : Anc s a b) (h2 : Anc s b j) :
    Anc s a j := by
  induction h2 with
  | base hp => exact .step hp h1
  | step hp _ ih => exact .step hp ih

theorem anc_linear {s : Store} (hwf : WF s) :
    ∀ j a b, Anc s a j → Anc s b j → a = b ∨ Anc s a b ∨ Anc s b a := by
  intro j
  induction j using Nat.strong_induction_on with
  | _ j ih =>
    intro a b ha hb
    cases ha with
    | base hpa =>
      cases hb with
      | base hpb => rw [hpa] at hpb; injection hpb with hpb; exact Or.inl hpb
      | step hpb hb' =>
        rw [hpa] at hpb; injection hpb with hpb
        exact Or.inr (Or.inr (hpb ▸ hb'))
    | step hpa ha' =>
      cases hb with
      | base hpb =>
        rw [hpa] at hpb; injection hpb with hpb
        exact Or.inr (Or.inl (hpb ▸ ha'))
      | step hpb hb' =>
        rw [hpa] at hpb; injection hpb with hpb
        subst hpb
        exact ih _ (wf_parent_lt hwf hpa) a b ha' hb'

/-- Under WF, a child membership gives the back parent link. -/
theorem wf_child_parent {s : Store} (hwf : WF s) {x c : Nat} {n : Node}
    (hx : nodeAt s x = some n) (hc : c ∈ n.children) :
    x < c ∧ ∃ cn, nodeAt s c = some cn ∧ cn.parent = some x :=
  (wf_field hwf hx).2.2.2.2 c hc

/-- Under WF, every live non-root is a child of its parent's node. -/
theorem wf_parent_child {s : Store} (hwf : WF s) {j : Nat} {n : Node}
    (hj : nodeAt s j = some n) (h0 : j ≠ 0) :
    ∃ p, n.parent = some p ∧ ∃ pn, nodeAt s p = some pn ∧ j ∈ pn.children :=
  (wf_field hwf hj).2.2.1 h0

theorem subt_live {s : Store} (hwf : WF s) {x y : Nat} (h : Subt s x y) :
    (∃ n, nodeAt s x = some n) → ∃ m, nodeAt s y = some m := by
  induction h with
  | refl => exact id
  | child n hx hc _ ih =>
    intro _
    obtain ⟨_, cn, hcn, _⟩ := wf_child_parent hwf hx hc
    exact ih ⟨cn, hcn⟩

/-- Extend a subtree membership one child step downward. -/
theorem subt_snoc {s : Store} {x q y : Nat} {m : Node} (h : Subt s x q) :
    nodeAt s q = some m → y ∈ m.children → Subt s x y := by
  induction h with
  | refl => intro hq hy; exact .child m hq hy (.refl y)
  | child n hx hc _ ih => intro hq hy; exact .child n hx hc (ih hq hy)

/-- Under WF, the subtree relation is reflexive closure of the ancestor
relation (seen from below). -/
theorem subt_iff_anc {s : Store} (hwf : WF s) {x y : Nat} :
    Subt s x y ↔ (y = x ∨ Anc s x y) := by
  constructor
  · intro h
    induction h with
    | refl => exact Or.inl rfl
    | @child a c b n hx hc _ ih =>
      obtain ⟨_, cn, hcn, hpar⟩ := wf_child_parent hwf hx hc
      have hp : parentOf s c = some a := by rw [parentOf_eq hcn]; exact hpar
      cases ih with
      | inl he => exact Or.inr (he ▸ Anc.base hp)
      | inr ha => exact Or.inr (anc_trans (Anc.base hp) ha)
  · intro h
    cases h with
    | inl he => subst he; exact .refl y
    | inr ha =>
      induction ha with
      | @base j hp =>
        obtain ⟨n, hn⟩ := parentOf_live hp
        rw [parentOf_eq hn] at hp
        have h0 : j ≠ 0 := by
          intro h0
          subst h0
          rw [(wf_field hwf hn).2.1 rfl] at hp; cases hp
        obtain ⟨p, hpar, pn, hpn, hmem⟩ := wf_parent_child hwf hn h0
        rw [hpar] at hp
        injection hp with hp
        subst hp
        exact .child pn hpn hmem (.refl _)
      | @step j q hp _ ih =>
        obtain ⟨n, hn⟩ := parentOf_live hp
        rw [parentOf_eq hn] at hp
        have h0 : j ≠ 0 := by
          intro h0
          subst h0
          rw [(wf_field hwf hn).2.1 rfl] at hp; cases hp
        obtain ⟨p, hpar, pn, hpn, hmem⟩ := wf_parent_child hwf hn h0
        rw [hpar] at hp
        injection hp with hp
        subst hp
        exact subt_snoc ih hpn hmem

/-- An ancestor of a child c of x is x itself or an ancestor of x. -/
theorem anc_child_cases {s : Store} {x c a : Nat}
    (hp : parentOf s c = some x) (h : Anc s a c) : a = x ∨ Anc s a x := by
  cases h with
  | base hp' => rw [hp] at hp'; injection hp' with hp'; exact Or.inl hp'.symm
  | step hp' h' =>
    rw [hp] at hp'; injection hp' with hp'
    exact Or.inr (hp' ▸ h')

/-- Under WF, the subtrees of two distinct children of the same node are
disjoint. -/
theorem subt_sibling_disjoint {s : Store} (hwf : WF s) {x : Nat} {n : Node}
    {c1 c2 y : Nat} (hx : nodeAt s x = some n) (h1 : c1 ∈ n.children)
    (h2 : c2 ∈ n.children) (hne : c1 ≠ c2) (hs1 : Subt s c1 y)
    (hs2 : Subt s c2 y) : False := by
  obtain ⟨hlt1, cn1, hcn1, hp1⟩ := wf_child_parent hwf hx h1
  obtain ⟨hlt2, cn2, hcn2, hp2⟩ := wf_child_parent hwf hx h2
  have hpo1 : parentOf s c1 = some x := by rw [parentOf_eq hcn1]; exact hp1
  have hpo2 : parentOf s c2 = some x := by rw [parentOf_eq hcn2]; exact hp2
  rw [subt_iff_anc hwf] at hs1 hs2
  cases hs1 with
  | inl he1 =>
    cases hs2 with
    | inl he2 => exact hne (he1 ▸ he2 ▸ rfl)
    | inr ha2 =>
      subst he1
      rcases anc_child_cases hpo1 ha2 with h | h
      · omega
      · have := anc_lt hwf h; omega
  | inr ha1 =>
    cases hs2 with
    | inl he2 =>
      subst he2
      rcases anc_child_cases hpo2 ha1 with h | h
      · omega
      · have := anc_lt hwf h; omega
    | inr ha2 =>
      rcases anc_linear hwf y c1 c2 ha1 ha2 with h | h | h
      · exact hne h
      · rcases anc_child_cases hpo2 h with h' | h'
        · omega
        · have := anc_lt hwf h'; omega
      · rcases anc_child_cases hpo1 h with h' | h'
        · omega
        · have := anc_lt hwf h'; omega

/-- "Children already listed": every element of the second list has all its
children (in s) inside the accumulator extended with the elements that
precede it.  This is the order in which Store::remove can safely process
deletions. -/
def cbsAux (s : Store) : List Nat → List Nat → Prop
  | _, [] => True
  | done, y :: rest =>
    (∀ n, nodeAt s y = some n → ∀ c, c ∈ n.children → c ∈ done) ∧
    cbsAux s (done ++ [y]) rest

theorem cbsAux_mono {s : Store} : ∀ {L d d' : List Nat}, cbsAux s d L →
    (∀ x, x ∈ d → x ∈ d') → cbsAux s d' L := by
  intro L
  induction L with
  | nil => intro d d' _ _; trivial
  | cons y rest ih =>
    intro d d' h hsub
    exact ⟨fun n hn c hc => hsub c (h.1 n hn c hc),
           ih h.2 (fun x hx => by
             rcases List.mem_append.mp hx with h' | h'
             · exact List.mem_append.mpr (Or.inl (hsub x h'))
             · exact List.mem_append.mpr (Or.inr h'))⟩

theorem cbsAux_append {s : Store} : ∀ {A B d : List Nat}, cbsAux s d A →
    cbsAux s (d ++ A) B → cbsAux s d (A ++ B) := by
  intro A
  induction A with
  | nil => intro B d _ hB; simpa using hB
  | cons y rest ih =>
    intro B d hA hB
    refine ⟨hA.1, ih hA.2 ?_⟩
    have he : (d ++ [y]) ++ rest = d ++ y :: rest := by simp
    rw [he]
    exact hB

theorem cbsAux_append_split {s : Store} : ∀ {A B d : List Nat},
    cbsAux s d (A ++ B) → cbsAux s d A ∧ cbsAux s (d ++ A) B := by
  intro A
  induction A with
  | nil => intro B d h; exact ⟨trivial, by simpa using h⟩
  | cons y rest ih =>
    intro B d h
    obtain ⟨h1, h2⟩ := h
    obtain ⟨ha, hb⟩ := ih h2
    refine ⟨⟨h1, ha⟩, ?_⟩
    have he : (d ++ [y]) ++ rest = d ++ y :: rest := by simp
    rw [he] at hb
    exact hb

theorem cbsAux_mem_children {s : Store} : ∀ {P d : List Nat}, cbsAux s d P →
    ∀ {p}, p ∈ P → ∀ {n}, nodeAt s p = some n → ∀ {c}, c ∈ n.children →
    c ∈ d ++ P := by
  intro P
  induction P with
  | nil => intro d _ p hp; cases hp
  | cons y rest ih =>
    intro d h p hp n hn c hc
    rcases List.mem_cons.mp hp with rfl | hp'
    · exact List.mem_append.mpr (Or.inl (h.1 n hn c hc))
    · have := ih h.2 hp' hn hc
      simpa [List.append_assoc] using this

theorem subt_cases {s : Store} {x y : Nat} {n : Node} (hx : nodeAt s x = some n) :
    Subt s x y ↔ (y = x ∨ ∃ c, c ∈ n.children ∧ Subt s c y) := by
  constructor
  · intro h
    cases h with
    | refl => exact Or.inl rfl
    | child n' hx' hc hsub =>
      rw [hx] at hx'
      injection hx' with hx'
      subst hx'
      exact Or.inr ⟨_, hc, hsub⟩
  · intro h
    rcases h with rfl | ⟨c, hc, hsub⟩
    · exact .refl y
    · exact .child n hx hc hsub

theorem children_pairwise_disjoint {s : Store} (hwf : WF s) {x : Nat} {n : Node}
    (hx : nodeAt s x = some n) :
    n.children.Pairwise (fun a b => ∀ y, Subt s a y → Subt s b y → False) := by
  have hnd : n.children.Nodup := (wf_field hwf hx).2.2.2.1
  refine hnd.imp_of_mem ?_
  intro a b ha hb hne y s1 s2
  exact subt_sibling_disjoint hwf hx ha hb hne s1 s2

theorem recRemAll_nil {s : Store} {fuel : Nat} : s.recRemAll fuel [] = some [] := rfl

theorem recRemAll_cons {s : Store} {fuel x : Nat} {rest : List Nat} :
    s.recRemAll fuel (x :: rest) =
      match s.recRemAll fuel rest, s.recRemOne fuel x with
      | some r, some sub => some (sub ++ r)
      | _, _ => none := rfl

theorem recRemOne_succ {s : Store} {f id : Nat} : s.recRemOne (f + 1) id =
    match s.nodes[id]? with
    | none => none
    | some none => some [id]
    | some (some n) =>
      match s.recRemAll f n.children with
      | none => none
      | some sub => some (sub ++ [id]) := rfl

/-- Characterization of the removal collection of Store::remove: on a
worklist of live nodes with pairwise-disjoint subtrees and enough fuel, it
returns exactly the union of their subtrees, without duplicates, in an
order that lists every node's children before the node itself. -/
theorem recRemChar {s : Store} (hwf : WF s) :
    ∀ fuel (ids : List Nat),
    (∀ x, x ∈ ids → ∃ n, nodeAt s x = some n) →
    (∀ x, x ∈ ids → s.nodes.length - x ≤ fuel) →
    ids.Pairwise (fun a b => ∀ y, Subt s a y → Subt s b y → False) →
    ∃ L, s.recRemAll fuel ids = some L ∧
      (∀ y, y ∈ L ↔ ∃ x, x ∈ ids ∧ Subt s x y) ∧
      L.Nodup ∧ cbsAux s [] L := by
  intro fuel
  induction fuel with
  | zero =>
    intro ids h1 h2 _
    match ids with
    | [] => exact ⟨[], recRemAll_nil, by simp, List.nodup_nil, trivial⟩
    | x :: rest =>
      obtain ⟨n, hn⟩ := h1 x (List.mem_cons_self x rest)
      have hx := nodeAt_lt hn
      have := h2 x (List.mem_cons_self x rest)
      omega
  | succ f ihf =>
    intro ids
    induction ids with
    | nil => intro _ _ _; exact ⟨[], recRemAll_nil, by simp, List.nodup_nil, trivial⟩
    | cons x rest ihrest =>
      intro h1 h2 h3
      obtain ⟨n, hn⟩ := h1 x (List.mem_cons_self x rest)
      have hn' : s.nodes[x]? = some (some n) := nodeAt_eq_iff.mp hn
      have hxlt := nodeAt_lt hn
      have hch1 : ∀ c, c ∈ n.children → ∃ m, nodeAt s c = some m := by
        intro c hc
        obtain ⟨_, cn, hcn, _⟩ := wf_child_parent hwf hn hc
        exact ⟨cn, hcn⟩
      have hch2 : ∀ c, c ∈ n.children → s.nodes.length - c ≤ f := by
        intro c hc
        have h := (wf_child_parent hwf hn hc).1
        have := h2 x (List.mem_cons_self x rest)
        omega
      obtain ⟨subc, hsubc, hsubmem, hsubnd, hsubcbs⟩ :=
        ihf n.children hch1 hch2 (children_pairwise_disjoint hwf hn)
      obtain ⟨r, hr, hrmem, hrnd, hrcbs⟩ :=
        ihrest (fun z hz => h1 z (List.mem_cons_of_mem x hz))
               (fun z hz => h2 z (List.mem_cons_of_mem x hz))
               (List.pairwise_cons.mp h3).2
      have hdisj := (List.pairwise_cons.mp h3).1
      have hxnot : x ∉ subc := by
        intro hx'
        obtain ⟨c, hc, hcs⟩ := (hsubmem x).mp hx'
        have hclt := (wf_child_parent hwf hn hc).1
        rcases (subt_iff_anc hwf).mp hcs with he | ha
        · omega
        · have := anc_lt hwf ha; omega
      have hsub_subt : ∀ y, y ∈ subc → Subt s x y := by
        intro y hy
        obtain ⟨c, hc, hcs⟩ := (hsubmem y).mp hy
        exact .child n hn hc hcs
      refine ⟨subc ++ x :: r, ?_, ?_, ?_, ?_⟩
      · rw [recRemAll_cons, hr, recRemOne_succ, hn']
        simp [hsubc]
      · intro y
        constructor
        · intro hy
          rcases List.mem_append.mp hy with hy | hy
          · exact ⟨x, List.mem_cons_self x rest, hsub_subt y hy⟩
          · rcases List.mem_cons.mp hy with rfl | hy'
            · exact ⟨y, List.mem_cons_self y rest, .refl y⟩
            · obtain ⟨z, hz, hzs⟩ := (hrmem y).mp hy'
              exact ⟨z, List.mem_cons_of_mem x hz, hzs⟩
        · rintro ⟨z, hz, hzs⟩
          rcases List.mem_cons.mp hz with rfl | hz'
          · rcases (subt_cases hn).mp hzs with rfl | ⟨c, hc, hcs⟩
            · exact List.mem_append.mpr (Or.inr (List.mem_cons_self y r))
            · exact List.mem_append.mpr (Or.inl ((hsubmem y).mpr ⟨c, hc, hcs⟩))
          · exact List.mem_append.mpr
              (Or.inr (List.mem_cons_of_mem x ((hrmem y).mpr ⟨z, hz', hzs⟩)))
      · refine List.Nodup.append hsubnd ?_ ?_
        · refine List.nodup_cons.mpr ⟨?_, hrnd⟩
          intro hx'
          obtain ⟨z, hz, hzs⟩ := (hrmem x).mp hx'
          exact hdisj z hz x (.refl x) hzs
        · intro a ha ha'
          rcases List.mem_cons.mp ha' with rfl | ha''
          · exact hxnot ha
          · obtain ⟨z, hz, hzs⟩ := (hrmem a).mp ha''
            exact hdisj z hz a (hsub_subt a ha) hzs
      · refine cbsAux_append hsubcbs ?_
        refine cbsAux_mono (d := subc) ?_ (fun z hz => by simp [hz])
        refine ⟨?_, ?_⟩
        · intro m hm c hc
          rw [hn] at hm
          injection hm with hm
          subst hm
          exact (hsubmem c).mpr ⟨c, hc, .refl c⟩
        · exact cbsAux_mono hrcbs (fun z hz => by cases hz)

theorem nodeAt_set_ne {t : Store} {k j : Nat} (v : Option Node) (h : k ≠ j) :
    nodeAt ⟨t.nodes.set k v⟩ j = nodeAt t j := by
  unfold nodeAt
  simp only [List.getElem?_set_ne h]

theorem getElem?_set_ne' {t : Store} {k j : Nat} (v : Option Node) (h : k ≠ j) :
    (⟨t.nodes.set k v⟩ : Store).nodes[j]? = t.nodes[j]? := by
  simp only [List.getElem?_set_ne h]

theorem getElem?_set_self' {t : Store} {k : Nat} (v : Option Node)
    (h : k < t.nodes.length) :
    (⟨t.nodes.set k v⟩ : Store).nodes[k]? = some v := by
  simp only [List.getElem?_set_self h]

theorem store_len_set_some {t : Store} {k : Nat} {m v : Node}
    (hk : t.nodes[k]? = some (some m)) :
    Store.len ⟨t.nodes.set k (some v)⟩ = Store.len t := by
  obtain ⟨hlt, heq⟩ := List.getElem?_eq_some.mp hk
  unfold Store.len
  rw [List.countP_set _ _ _ _ hlt, heq]
  have hpos : 0 < t.nodes.countP (fun n => n.isSome) :=
    List.countP_pos_iff.mpr ⟨some m, heq ▸ List.getElem_mem hlt, rfl⟩
  simp
  omega

theorem store_len_set_none {t : Store} {k : Nat} {m : Node}
    (hk : t.nodes[k]? = some (some m)) :
    Store.len ⟨t.nodes.set k none⟩ + 1 = Store.len t := by
  obtain ⟨hlt, heq⟩ := List.getElem?_eq_some.mp hk
  unfold Store.len
  rw [List.countP_set _ _ _ _ hlt, heq]
  have hpos : 0 < t.nodes.countP (fun n => n.isSome) :=
    List.countP_pos_iff.mpr ⟨some m, heq ▸ List.getElem_mem hlt, rfl⟩
  simp
  omega

/-- A node with the ids in done filtered out of its child list. -/
def filtNode (n : Node) (done : List Nat) : Node :=
  { n with children := n.children.filter (fun c => decide (c ∉ done)) }

/-- A node with one id filtered out of its child list (the
children.retain(x != nid) of Store::remove). -/
def rmChild (n : Node) (y : Nat) : Node :=
  { n with children := n.children.filter (fun x => decide (x ≠ y)) }

/-- The store produced by one detach-and-tombstone step. -/
def tombStore (t : Store) (p : Nat) (v : Node) (y : Nat) : Store :=
  ⟨(t.nodes.set p (some v)).set y none⟩

/-- The intermediate store shape while Store::remove processes its
collected list: the ids in done are tombstoned, every other slot holds its
original node with the done ids filtered out of its child list. -/
def midState (s : Store) (done : List Nat) (t : Store) : Prop :=
  t.nodes.length = s.nodes.length ∧
  (∀ j, j ∈ done → t.nodes[j]? = some none) ∧
  (∀ j, j ∉ done → ∀ n, nodeAt s j = some n → nodeAt t j = some (filtNode n done)) ∧
  (∀ j, j ∉ done → j < s.nodes.length → nodeAt s j = none → nodeAt t j = none)

theorem filtNode_nil (n : Node) : filtNode n [] = n := by
  unfold filtNode
  have : n.children.filter (fun c => decide (c ∉ ([] : List Nat))) = n.children :=
    List.filter_eq_self.mpr (by simp)
  rw [this]

theorem midState_nil (s : Store) : midState s [] s := by
  refine ⟨rfl, by simp, ?_, by simp⟩
  intro j _ n hn
  rw [filtNode_nil, hn]

theorem detachTomb_eq {t : Store} {y : Nat} {nt pnt : Node} {p : Nat}
    (h1 : nodeAt t y = some nt) (h2 : nt.parent = some p)
    (h3 : nodeAt t p = some pnt) :
    detachTomb t y = some (tombStore t p (rmChild pnt y) y) := by
  simp only [detachTomb, h1, h2, h3, tombStore, rmChild]

theorem nodeAt_tombStore_other {t : Store} {p : Nat} {v : Node} {y j : Nat}
    (hpj : p ≠ j) (hyj : y ≠ j) :
    nodeAt (tombStore t p v y) j = nodeAt t j := by
  unfold tombStore nodeAt
  simp only [List.getElem?_set_ne hyj, List.getElem?_set_ne hpj]

theorem getElem?_tombStore_other {t : Store} {p : Nat} {v : Node} {y j : Nat}
    (hpj : p ≠ j) (hyj : y ≠ j) :
    (tombStore t p v y).nodes[j]? = t.nodes[j]? := by
  unfold tombStore
  simp only [List.getElem?_set_ne hyj, List.getElem?_set_ne hpj]

theorem getElem?_tombStore_y {t : Store} {p : Nat} {v : Node} {y : Nat}
    (hy : y < t.nodes.length) :
    (tombStore t p v y).nodes[y]? = some none := by
  unfold tombStore
  have : y < (t.nodes.set p (some v)).length := by simpa using hy
  simp only [List.getElem?_set_self this]

theorem nodeAt_tombStore_p {t : Store} {p : Nat} {v : Node} {y : Nat}
    (hpy : p ≠ y) (hp : p < t.nodes.length) :
    nodeAt (tombStore t p v y) p = some v := by
  unfold tombStore nodeAt
  simp only [List.getElem?_set_ne (Ne.symm hpy), List.getElem?_set_self hp]

theorem len_tombStore {t : Store} {p : Nat} {v : Node} {y : Nat} {pm ym : Node}
    (hpy : p ≠ y) (hp : t.nodes[p]? = some (some pm))
    (hy : t.nodes[y]? = some (some ym)) :
    Store.len t = Store.len (tombStore t p v y) + 1 := by
  have l1 : Store.len ⟨t.nodes.set p (some v)⟩ = Store.len t :=
    store_len_set_some hp
  have hy1 : (⟨t.nodes.set p (some v)⟩ : Store).nodes[y]? = some (some ym) := by
    rw [getElem?_set_ne' (t := t) (k := p) (j := y) (some v) hpy]
    exact hy
  have l2 := store_len_set_none (t := ⟨t.nodes.set p (some v)⟩) hy1
  have l2' : Store.len ⟨(t.nodes.set p (some v)).set y none⟩ + 1 =
      Store.len ⟨t.nodes.set p (some v)⟩ := l2
  unfold tombStore
  omega

/-- One step of the removal loop advances the midState invariant: y is a
live node not yet processed whose parent is also unprocessed. -/
theorem midStep {s : Store} (hwf : WF s) {done : List Nat} {t : Store}
    (hm : midState s done t) {y : Nat} {n : Node} (hy : nodeAt s y = some n)
    (hynot : y ∉ done) {p : Nat} (hp : n.parent = some p) (hpnot : p ∉ done) :
    ∃ t', detachTomb t y = some t' ∧ midState s (done ++ [y]) t' ∧
      Store.len t = Store.len t' + 1 := by
  obtain ⟨hlen, hdone, hlive, hdead⟩ := hm
  have hy0 : y ≠ 0 := by
    intro h0; subst h0
    rw [(wf_field hwf hy).2.1 rfl] at hp; cases hp
  obtain ⟨p', hp', pn, hpn, hmem⟩ := wf_parent_child hwf hy hy0
  rw [hp] at hp'
  injection hp' with hp'
  subst hp'
  have hyt : nodeAt t y = some (filtNode n done) := hlive y hynot n hy
  have hpt : nodeAt t p = some (filtNode pn done) := hlive p hpnot pn hpn
  have hplt : p < y := (wf_child_parent hwf hpn hmem).1
  have hpy : p ≠ y := Nat.ne_of_lt hplt
  have hylen : y < s.nodes.length := nodeAt_lt hy
  have hplen : p < s.nodes.length := nodeAt_lt hpn
  have hcomp := detachTomb_eq hyt (show (filtNode n done).parent = some p from hp) hpt
  refine ⟨_, hcomp, ⟨?_, ?_, ?_, ?_⟩, ?_⟩
  · simp [tombStore, List.length_set, hlen]
  · intro j hj
    rcases List.mem_append.mp hj with hj | hj
    · have hjy : y ≠ j := fun he => hynot (he ▸ hj)
      have hjp : p ≠ j := fun he => hpnot (he ▸ hj)
      rw [getElem?_tombStore_other hjp hjy]
      exact hdone j hj
    · have hjy : j = y := by simpa using hj
      rw [hjy]
      exact getElem?_tombStore_y (by rw [hlen]; exact hylen)
  · intro j hj m hms
    have hjd : j ∉ done := fun h => hj (List.mem_append.mpr (Or.inl h))
    have hjy : j ≠ y := fun h => hj (List.mem_append.mpr (Or.inr (by simp [h])))
    by_cases hjp : j = p
    · subst hjp
      rw [hpn] at hms
      injection hms with hms
      subst hms
      rw [nodeAt_tombStore_p hpy (by rw [hlen]; exact hplen)]
      congr 1
      simp only [rmChild, filtNode]
      rw [List.filter_filter, Node.mk.injEq]
      refine ⟨rfl, rfl, ?_, rfl⟩
      refine List.filter_congr ?_
      intro c _
      by_cases h1 : c ∈ done <;> by_cases h2 : c = y <;>
        simp [h1, h2, List.mem_append]
    · rw [nodeAt_tombStore_other (fun h => hjp h.symm) (fun h => hjy h.symm)]
      rw [hlive j hjd m hms]
      congr 1
      simp only [filtNode]
      rw [Node.mk.injEq]
      refine ⟨rfl, rfl, ?_, rfl⟩
      refine List.filter_congr ?_
      intro c hc
      have hcy : c ≠ y := by
        intro he
        subst he
        obtain ⟨_, cn, hcn, hcp⟩ := wf_child_parent hwf hms hc
        rw [hy] at hcn
        injection hcn with hcn
        subst hcn
        rw [hp] at hcp
        injection hcp with hcp
        exact hjp hcp.symm
      by_cases h1 : c ∈ done <;> simp [h1, hcy, List.mem_append]
  · intro j hj hjlt hms
    have hjd : j ∉ done := fun h => hj (List.mem_append.mpr (Or.inl h))
    have hjy : j ≠ y := fun h => hj (List.mem_append.mpr (Or.inr (by simp [h])))
    have hjp : j ≠ p := by
      intro h
      subst h
      rw [hpn] at hms
      cases hms
    rw [nodeAt_tombStore_other (fun h => hjp h.symm) (fun h => hjy h.symm)]
    exact hdead j hjd hjlt hms
  · exact len_tombStore hpy (nodeAt_eq_iff.mp hpt) (nodeAt_eq_iff.mp hyt)

theorem nodeAt_none_of_tomb {t : Store} {i : Nat} (h : t.nodes[i]? = some none) :
    nodeAt t i = none := by
  unfold nodeAt; rw [h]

theorem isNode_true {s : Store} {id : Nat} {n : Node} (h : nodeAt s id = some n) :
    s.isNode id = true := by
  have hlt := nodeAt_lt h
  unfold Store.isNode
  simp [h]
  omega

/-- Folding the removal loop over the whole collected list: processing rem
after done extends the midState invariant and decreases the live count by
one per processed id. -/
theorem removeAll_mid {s : Store} (hwf : WF s) :
    ∀ (rem done : List Nat) (t : Store),
    midState s done t →
    cbsAux s [] (done ++ rem) →
    (done ++ rem).Nodup →
    (∀ z, z ∈ rem → (∃ n, nodeAt s z = some n) ∧ z ≠ 0) →
    ∃ t', removeAll t rem = some t' ∧ midState s (done ++ rem) t' ∧
      Store.len t = Store.len t' + rem.length := by
  intro rem
  induction rem with
  | nil =>
    intro done t hm _ _ _
    exact ⟨t, rfl, by simpa using hm, by simp⟩
  | cons y rem ih =>
    intro done t hm hcbs hnd hz
    obtain ⟨⟨n, hy⟩, hy0⟩ := hz y (List.mem_cons_self y rem)
    have hynot : y ∉ done := by
      intro hmem
      exact (List.disjoint_of_nodup_append hnd) hmem (List.mem_cons_self y rem)
    obtain ⟨p, hp, pn, hpn, hmem⟩ := wf_parent_child hwf hy hy0
    have hpnot : p ∉ done := by
      intro hpd
      have hsplit := cbsAux_append_split (A := done) (B := y :: rem) (d := []) hcbs
      have hin := cbsAux_mem_children hsplit.1 hpd hpn hmem
      simp at hin
      exact hynot hin
    obtain ⟨t1, hdet, hm1, hlen1⟩ := midStep hwf hm hy hynot hp hpnot
    have hassoc : (done ++ [y]) ++ rem = done ++ y :: rem := by simp
    obtain ⟨t', hrest, hm', hlen'⟩ := ih (done ++ [y]) t1 hm1
      (by rw [hassoc]; exact hcbs)
      (by rw [hassoc]; exact hnd)
      (fun z hz' => hz z (List.mem_cons_of_mem y hz'))
    refine ⟨t', ?_, ?_, ?_⟩
    · simp only [removeAll, hdet]
      exact hrest
    · rw [← hassoc]; exact hm'
    · simp only [List.length_cons]; omega

/-- The full specification of Store::remove on a live non-root node of a
well-formed store: it succeeds, and the resulting store is the midState
masking of the collected subtree list. -/
theorem remove_spec {s : Store} (hwf : WF s) {id : Nat} {n : Node}
    (hid : nodeAt s id = some n) (h0 : id ≠ 0) :
    ∃ L s', s.recRemOne s.nodes.length id = some L ∧
      s.remove id = some s' ∧
      (∀ y, y ∈ L ↔ Subt s id y) ∧ L.Nodup ∧
      midState s L s' ∧ Store.len s = Store.len s' + L.length := by
  obtain ⟨L, hL, hmemL, hndL, hcbsL⟩ := recRemChar hwf s.nodes.length [id]
    (by intro x hx; simp at hx; subst hx; exact ⟨n, hid⟩)
    (by intro x hx; omega)
    (by simp)
  rw [recRemAll_cons, recRemAll_nil] at hL
  match hone : s.recRemOne s.nodes.length id with
  | none => rw [hone] at hL; cases hL
  | some sub =>
    rw [hone] at hL
    simp at hL
    subst hL
    have hmemL' : ∀ y, y ∈ sub ↔ Subt s id y := by
      intro y
      rw [hmemL y]
      simp
    have hzL : ∀ z, z ∈ sub → (∃ m, nodeAt s z = some m) ∧ z ≠ 0 := by
      intro z hzi
      have hsz := (hmemL' z).mp hzi
      refine ⟨subt_live hwf hsz ⟨n, hid⟩, ?_⟩
      rcases (subt_iff_anc hwf).mp hsz with he | ha
      · omega
      · have := anc_lt hwf ha; omega
    obtain ⟨s', hrem, hm', hlen'⟩ := removeAll_mid hwf sub [] s (midState_nil s)
      (by simpa using hcbsL) (by simpa using hndL) hzL
    refine ⟨sub, s', rfl, ?_, hmemL', hndL, by simpa using hm', hlen'⟩
    unfold Store.remove
    rw [isNode_true hid]
    simp only [Bool.true_eq_false, if_false, hone]
    exact hrem

/-- The midState masking of a subtree-closed, root-free list of live nodes
is again well-formed. -/
theorem midState_WF {s : Store} (hwf : WF s) {L : List Nat} {t : Store}
    (hm : midState s L t)
    (hclosed : ∀ y, y ∈ L → ∀ m, nodeAt s y = some m → ∀ c, c ∈ m.children → c ∈ L)
    (h0 : (0 : Nat) ∉ L) :
    WF t := by
  obtain ⟨hlen, hdone, hlive, hdead⟩ := hm
  have hroot : ∃ r, nodeAt s 0 = some r := by
    have h := hwf.1
    match hr : nodeAt s 0 with
    | some r => exact ⟨r, rfl⟩
    | none => rw [hr] at h; cases h
  constructor
  · obtain ⟨r, hr⟩ := hroot
    rw [hlive 0 h0 r hr]
    rfl
  · intro i hi m' hm'
    have hiL : i ∉ L := by
      intro hmem
      rw [nodeAt_none_of_tomb (hdone i hmem)] at hm'
      cases hm'
    have hilen : i < s.nodes.length := by rw [← hlen]; exact hi
    match hms : nodeAt s i with
    | none =>
      rw [hdead i hiL hilen hms] at hm'
      cases hm'
    | some m =>
      rw [hlive i hiL m hms] at hm'
      injection hm' with hm'
      subst hm'
      obtain ⟨hid, hparent0, hparent, hnodup, hchild⟩ := wf_field hwf hms
      refine ⟨hid, hparent0, ?_, hnodup.filter _, ?_⟩
      · intro hne
        obtain ⟨p, hp, pn, hpn, hpmem⟩ := hparent hne
        have hpL : p ∉ L := by
          intro hpmem'
          exact hiL (hclosed p hpmem' pn hpn i hpmem)
        refine ⟨p, hp, filtNode pn L, hlive p hpL pn hpn, ?_⟩
        simp only [filtNode, List.mem_filter]
        exact ⟨hpmem, by simpa using hiL⟩
      · intro c hc
        simp only [filtNode, List.mem_filter] at hc
        obtain ⟨hc, hcL⟩ := hc
        have hcL : c ∉ L := by simpa using hcL
        obtain ⟨hlt, cn, hcn, hcp⟩ := hchild c hc
        exact ⟨hlt, filtNode cn L, hlive c hcL cn hcn, hcp⟩

theorem isNode_nodeAt {s : Store} {id : Nat} (h : s.isNode id = true) :
    ∃ n, nodeAt s id = some n := by
  unfold Store.isNode at h
  rw [Bool.and_eq_true] at h
  rcases h with ⟨_, h2⟩
  match hm : nodeAt s id with
  | some n => exact ⟨n, rfl⟩
  | none => rw [hm] at h2; cases h2

/-- The store built by Store::add under a live parent. -/
def insStore (s : Store) (parent : Nat) (pn : Node) (node : Node) : Store :=
  ⟨((s.nodes ++ [some node]).set parent
      (some { pn with children := pn.children ++ [s.nodes.length] })).set
      s.nodes.length (some { node with id := s.nodes.length })⟩

theorem add_eq {s : Store} {parent : Nat} {pn : Node}
    (hp : nodeAt s parent = some pn) {node : Node}
    (hpar : node.parent = some parent) :
    s.add node = some (insStore s parent pn node, s.nodes.length) := by
  have hplt : parent < s.nodes.length := nodeAt_lt hp
  have hp' : s.nodes[parent]? = some (some pn) := nodeAt_eq_iff.mp hp
  have e1 : (s.nodes ++ [some node])[parent]? = some (some pn) := by
    rw [List.getElem?_append_left hplt]; exact hp'
  have hlen1 : (s.nodes ++ [some node]).length - 1 = s.nodes.length := by simp
  have hne : parent ≠ s.nodes.length := Nat.ne_of_lt hplt
  have e2 : ((s.nodes ++ [some node]).set parent
      (some { pn with children := pn.children ++ [s.nodes.length] }))[s.nodes.length]? =
      some (some node) := by
    rw [List.getElem?_set_ne hne]
    exact List.getElem?_concat_length s.nodes (some node)
  unfold Store.add
  rw [hpar]
  simp only [hlen1, e1, e2, insStore]

theorem nodeAt_ins_new {s : Store} {parent : Nat} {pn node : Node} :
    nodeAt (insStore s parent pn node) s.nodes.length =
      some { node with id := s.nodes.length } := by
  unfold insStore nodeAt
  have h : s.nodes.length <
      ((s.nodes ++ [some node]).set parent
        (some { pn with children := pn.children ++ [s.nodes.length] })).length := by
    simp
  rw [List.getElem?_set_self h]

theorem nodeAt_ins_parent {s : Store} {parent : Nat} {pn node : Node}
    (hplt : parent < s.nodes.length) :
    nodeAt (insStore s parent pn node) parent =
      some { pn with children := pn.children ++ [s.nodes.length] } := by
  unfold insStore nodeAt
  have hne : s.nodes.length ≠ parent := (Nat.ne_of_lt hplt).symm
  rw [List.getElem?_set_ne hne]
  have h : parent < (s.nodes ++ [some node]).length := by simp; omega
  rw [List.getElem?_set_self h]

theorem nodeAt_ins_other {s : Store} {parent : Nat} {pn node : Node} {j : Nat}
    (h1 : j ≠ parent) (h2 : j ≠ s.nodes.length) :
    nodeAt (insStore s parent pn node) j = nodeAt s j := by
  unfold insStore nodeAt
  rw [List.getElem?_set_ne (Ne.symm h2), List.getElem?_set_ne (Ne.symm h1)]
  rcases Nat.lt_or_ge j s.nodes.length with h | h
  · rw [List.getElem?_append_left h]
  · have hgt : s.nodes.length < j := Nat.lt_of_le_of_ne h (Ne.symm h2)
    have e1 : (s.nodes ++ [some node])[j]? = none := by
      apply List.getElem?_eq_none
      simp
      omega
    have e2 : s.nodes[j]? = none := List.getElem?_eq_none (by omega)
    rw [e1, e2]

theorem ins_length {s : Store} {parent : Nat} {pn node : Node} :
    (insStore s parent pn node).nodes.length = s.nodes.length + 1 := by
  unfold insStore
  simp

/-- Store::new_node_with_parent on a live parent: the result, and
preservation of well-formedness. -/
theorem insert_WF {s : Store} (hwf : WF s) {parent : Nat} {s' : Store} {id : Nat}
    (h : s.newNodeWithParent parent = some (s', id)) :
    WF s' ∧ id = s.nodes.length ∧ s'.nodes.length = s.nodes.length + 1 := by
  unfold Store.newNodeWithParent at h
  match hisn : s.isNode parent with
  | false => rw [hisn] at h; cases h
  | true =>
    rw [hisn] at h
    simp only [if_true] at h
    obtain ⟨pn, hp⟩ := isNode_nodeAt hisn
    rw [add_eq hp rfl] at h
    injection h with h
    injection h with h1 h2
    subst h1
    subst h2
    have hplt : parent < s.nodes.length := nodeAt_lt hp
    have hroot1 : s.nodes.length ≠ 0 := by omega
    refine ⟨⟨?_, ?_⟩, rfl, ins_length⟩
    · by_cases hq : (0 : Nat) = parent
      · subst hq
        rw [nodeAt_ins_parent hplt]
        rfl
      · rw [nodeAt_ins_other (j := 0) hq (Ne.symm hroot1)]
        exact hwf.1
    · intro i hi m' hm'
      by_cases hinew : i = s.nodes.length
      · subst hinew
        rw [nodeAt_ins_new] at hm'
        injection hm' with hm'
        subst hm'
        refine ⟨rfl, fun he => absurd he hroot1, ?_, List.nodup_nil, by simp⟩
        intro _
        refine ⟨parent, rfl, { pn with children := pn.children ++ [s.nodes.length] },
          nodeAt_ins_parent hplt, by simp⟩
      · by_cases hipar : i = parent
        · subst hipar
          rw [nodeAt_ins_parent hplt] at hm'
          injection hm' with hm'
          subst hm'
          obtain ⟨hid', hpar0, hpar, hnd, hch⟩ := wf_field hwf hp
          refine ⟨hid', hpar0, ?_, ?_, ?_⟩
          · intro hne
            obtain ⟨q, hq, qn, hqn, hqmem⟩ := hpar hne
            have hqlt : q < i := wf_parent_lt hwf (by rw [parentOf_eq hp]; exact hq)
            refine ⟨q, hq, qn, ?_, hqmem⟩
            rw [nodeAt_ins_other (by omega) (by omega)]
            exact hqn
          · refine List.Nodup.append hnd (List.nodup_singleton _) ?_
            intro a ha ha'
            obtain ⟨cn, hcn, _⟩ := (hch a ha).2
            have := nodeAt_lt hcn
            simp at ha'
            omega
          · intro c hc
            rcases List.mem_append.mp hc with hc | hc
            · obtain ⟨hlt, cn, hcn, hcp⟩ := hch c hc
              have hclen : c < s.nodes.length := nodeAt_lt hcn
              refine ⟨hlt, cn, ?_, hcp⟩
              rw [nodeAt_ins_other (by omega) (by omega)]
              exact hcn
            · simp at hc
              subst hc
              exact ⟨hplt, _, nodeAt_ins_new, rfl⟩
        · have hilt : i < s.nodes.length := by
            have := @ins_length s parent pn ⟨0, some parent, [], none⟩
            omega
          rw [nodeAt_ins_other hipar hinew] at hm'
          obtain ⟨hid', hpar0, hpar, hnd, hch⟩ := wf_field hwf hm'
          refine ⟨hid', hpar0, ?_, hnd, ?_⟩
          · intro hne
            obtain ⟨q, hq, qn, hqn, hqmem⟩ := hpar hne
            by_cases hqp : q = parent
            · refine ⟨q, hq, { qn with children := qn.children ++ [s.nodes.length] },
                ?_, List.mem_append.mpr (Or.inl hqmem)⟩
              rw [hqp] at hqn ⊢
              rw [hp] at hqn
              injection hqn with hqn
              rw [← hqn]
              exact nodeAt_ins_parent hplt
            · have hqlen : q < s.nodes.length := nodeAt_lt hqn
              refine ⟨q, hq, qn, ?_, hqmem⟩
              rw [nodeAt_ins_other hqp (by omega)]
              exact hqn
          · intro c hc
            obtain ⟨hlt, cn, hcn, hcp⟩ := hch c hc
            have hclen : c < s.nodes.length := nodeAt_lt hcn
            by_cases hcpar : c = parent
            · refine ⟨hlt, { cn with children := cn.children ++ [s.nodes.length] },
                ?_, hcp⟩
              rw [hcpar] at hcn ⊢
              rw [hp] at hcn
              injection hcn with hcn
              rw [← hcn]
              exact nodeAt_ins_parent hplt
            · refine ⟨hlt, cn, ?_, hcp⟩
              rw [nodeAt_ins_other hcpar (by omega)]
              exact hcn

theorem wf_new : WF Store.new := by decide

/-- The child-list loop of Store::_recurse on its own. -/
def recurseAll (s : Store) (fuel level : Nat) (l : List Nat) :
    Option (List (Nat × Nat)) :=
  l.foldr (fun c acc =>
    match acc, s.recurseNode fuel (level + 1) c with
    | some r, some sub => some ((c, level) :: sub ++ r)
    | _, _ => none) (some [])

theorem recurseNode_succ {s : Store} {f level id : Nat} :
    s.recurseNode (f + 1) level id =
      match s.nodes[id]? with
      | none => none
      | some none => some []
      | some (some n) => recurseAll s f level n.children := rfl

theorem recurseAll_nil {s : Store} {f level : Nat} :
    recurseAll s f level [] = some [] := rfl

theorem recurseAll_cons {s : Store} {f level c : Nat} {rest : List Nat} :
    recurseAll s f level (c :: rest) =
      match recurseAll s f level rest, s.recurseNode f (level + 1) c with
      | some r, some sub => some ((c, level) :: sub ++ r)
      | _, _ => none := rfl

/-- Characterization of the traversal of Store::recurse: on a worklist of
live children with enough fuel it succeeds, and the visited ids are exactly
the members of their subtrees. -/
theorem recurseAllChar {s : Store} (hwf : WF s) :
    ∀ fuel level (cs : List Nat),
    (∀ c, c ∈ cs → ∃ n, nodeAt s c = some n) →
    (∀ c, c ∈ cs → s.nodes.length - c ≤ fuel) →
    ∃ V, recurseAll s fuel level cs = some V ∧
      (∀ y, (∃ lvl, (y, lvl) ∈ V) ↔ ∃ c, c ∈ cs ∧ Subt s c y) := by
  intro fuel
  induction fuel with
  | zero =>
    intro level cs h1 h2
    match cs with
    | [] => exact ⟨[], rfl, by simp⟩
    | c :: rest =>
      obtain ⟨n, hn⟩ := h1 c (List.mem_cons_self c rest)
      have := nodeAt_lt hn
      have := h2 c (List.mem_cons_self c rest)
      omega
  | succ f ihf =>
    intro level cs
    induction cs with
    | nil => intro _ _; exact ⟨[], rfl, by simp⟩
    | cons c rest ihrest =>
      intro h1 h2
      obtain ⟨n, hn⟩ := h1 c (List.mem_cons_self c rest)
      have hn' : s.nodes[c]? = some (some n) := nodeAt_eq_iff.mp hn
      have hclt := nodeAt_lt hn
      obtain ⟨r, hr, hrmem⟩ :=
        ihrest (fun z hz => h1 z (List.mem_cons_of_mem c hz))
               (fun z hz => h2 z (List.mem_cons_of_mem c hz))
      have hch1 : ∀ cc, cc ∈ n.children → ∃ m, nodeAt s cc = some m := by
        intro cc hcc
        obtain ⟨_, cn, hcn, _⟩ := wf_child_parent hwf hn hcc
        exact ⟨cn, hcn⟩
      have hch2 : ∀ cc, cc ∈ n.children → s.nodes.length - cc ≤ f := by
        intro cc hcc
        have := (wf_child_parent hwf hn hcc).1
        have := h2 c (List.mem_cons_self c rest)
        omega
      obtain ⟨sub, hsub, hsubmem⟩ := ihf (level + 1) n.children hch1 hch2
      refine ⟨(c, level) :: sub ++ r, ?_, ?_⟩
      · rw [recurseAll_cons, hr, recurseNode_succ, hn']
        simp [hsub]
      · intro y
        constructor
        · rintro ⟨lvl, hy⟩
          rcases List.mem_cons.mp hy with he | hy'
          · injection he with he1 _
            refine ⟨c, List.mem_cons_self c rest, ?_⟩
            rw [he1]
            exact Subt.refl c
          · rcases List.mem_append.mp hy' with hy'' | hy''
            · obtain ⟨cc, hcc, hccs⟩ := (hsubmem y).mp ⟨lvl, hy''⟩
              exact ⟨c, List.mem_cons_self c rest, .child n hn hcc hccs⟩
            · obtain ⟨z, hz, hzs⟩ := (hrmem y).mp ⟨lvl, hy''⟩
              exact ⟨z, List.mem_cons_of_mem c hz, hzs⟩
        · rintro ⟨z, hz, hzs⟩
          rcases List.mem_cons.mp hz with rfl | hz'
          · rcases (subt_cases hn).mp hzs with rfl | ⟨cc, hcc, hccs⟩
            · exact ⟨level, List.mem_cons_self _ _⟩
            · obtain ⟨lvl, hlvl⟩ := (hsubmem y).mpr ⟨cc, hcc, hccs⟩
              exact ⟨lvl, List.mem_cons_of_mem _ (List.mem_append.mpr (Or.inl hlvl))⟩
          · obtain ⟨lvl, hlvl⟩ := (hrmem y).mpr ⟨z, hz', hzs⟩
            exact ⟨lvl, List.mem_cons_of_mem _ (List.mem_append.mpr (Or.inr hlvl))⟩

/-- Under WF, the root is an ancestor of every live non-root node. -/
theorem anc_root {s : Store} (hwf : WF s) :
    ∀ y, (∃ n, nodeAt s y = some n) → y ≠ 0 → Anc s 0 y := by
  intro y
  induction y using Nat.strong_induction_on with
  | _ y ih =>
    intro hy hy0
    obtain ⟨n, hn⟩ := hy
    obtain ⟨p, hp, pn, hpn, _⟩ := wf_parent_child hwf hn hy0
    have hpo : parentOf s y = some p := by rw [parentOf_eq hn]; exact hp
    by_cases hp0 : p = 0
    · exact .base (hp0 ▸ hpo)
    · exact .step hpo (ih p (wf_parent_lt hwf hpo) ⟨pn, hpn⟩ hp0)

/-- Store::recurse from the root of a well-formed store succeeds and visits
exactly the live non-root nodes. -/
theorem recurse_root_spec {s : Store} (hwf : WF s) :
    ∃ V, s.recurse 0 = some V ∧
      (∀ y, (∃ lvl, (y, lvl) ∈ V) ↔ ((∃ n, nodeAt s y = some n) ∧ y ≠ 0)) := by
  have hr : ∃ r, nodeAt s 0 = some r := by
    have h := hwf.1
    match hr : nodeAt s 0 with
    | some r => exact ⟨r, rfl⟩
    | none => rw [hr] at h; cases h
  obtain ⟨r, hr⟩ := hr
  have hr' : s.nodes[0]? = some (some r) := nodeAt_eq_iff.mp hr
  have hlen : 0 < s.nodes.length := nodeAt_lt hr
  obtain ⟨f, hf⟩ : ∃ f, s.nodes.length = f + 1 := ⟨s.nodes.length - 1, by omega⟩
  have hch1 : ∀ c, c ∈ r.children → ∃ n, nodeAt s c = some n := by
    intro c hc
    obtain ⟨_, cn, hcn, _⟩ := wf_child_parent hwf hr hc
    exact ⟨cn, hcn⟩
  have hch2 : ∀ c, c ∈ r.children → s.nodes.length - c ≤ f := by
    intro c hc
    have := (wf_child_parent hwf hr hc).1
    have := nodeAt_lt (hch1 c hc).choose_spec
    omega
  obtain ⟨V, hV, hmem⟩ := recurseAllChar hwf f 0 r.children hch1 hch2
  refine ⟨V, ?_, ?_⟩
  · unfold Store.recurse
    rw [isNode_true hr]
    simp only [if_true]
    rw [hf, recurseNode_succ, hr']
    exact hV
  · intro y
    rw [hmem y]
    constructor
    · rintro ⟨c, hc, hcs⟩
      have hc0 : 0 < c := ((wf_field hwf hr).2.2.2.2 c hc).1
      have hy0 : y ≠ 0 := by
        rcases (subt_iff_anc hwf).mp hcs with he | ha
        · omega
        · have := anc_lt hwf ha; omega
      refine ⟨subt_live hwf hcs (hch1 c hc), hy0⟩
    · rintro ⟨⟨n, hn⟩, hy0⟩
      have hanc := anc_root hwf y ⟨n, hn⟩ hy0
      have hsub : Subt s 0 y := (subt_iff_anc hwf).mpr (Or.inr hanc)
      rcases (subt_cases hr).mp hsub with he | ⟨c, hc, hcs⟩
      · exact absurd he hy0
      · exact ⟨c, hc, hcs⟩

/-- The collection pass of Store::retain on a visit list of live nodes:
it succeeds and collects exactly the visited ids failing the predicate. -/
theorem collectFails_spec {s : Store} {keep : Node → Bool} :
    ∀ (vis : List (Nat × Nat)),
    (∀ y lvl, (y, lvl) ∈ vis → ∃ n, nodeAt s y = some n) →
    ∃ l, collectFails s keep vis = some l ∧
      (∀ y, y ∈ l ↔ ∃ lvl n, (y, lvl) ∈ vis ∧ nodeAt s y = some n ∧ keep n = false) := by
  intro vis
  induction vis with
  | nil => intro _; exact ⟨[], rfl, by simp⟩
  | cons hd rest ih =>
    intro hlive
    obtain ⟨y0, lvl0⟩ := hd
    obtain ⟨n0, hn0⟩ := hlive y0 lvl0 (List.mem_cons_self _ _)
    obtain ⟨l, hl, hlm⟩ := ih (fun y lvl h => hlive y lvl (List.mem_cons_of_mem _ h))
    refine ⟨if keep n0 = false then y0 :: l else l, ?_, ?_⟩
    · simp only [collectFails, hn0, hl]
    · intro y
      by_cases hk : keep n0 = false
      · simp only [if_pos hk]
        constructor
        · intro hy
          rcases List.mem_cons.mp hy with rfl | hy'
          · exact ⟨lvl0, n0, List.mem_cons_self _ _, hn0, hk⟩
          · obtain ⟨lvl, n, h1, h2, h3⟩ := (hlm y).mp hy'
            exact ⟨lvl, n, List.mem_cons_of_mem _ h1, h2, h3⟩
        · rintro ⟨lvl, n, h1, h2, h3⟩
          rcases List.mem_cons.mp h1 with he | h1'
          · injection he with he1 he2
            subst he1
            exact List.mem_cons_self _ _
          · exact List.mem_cons_of_mem _ ((hlm y).mpr ⟨lvl, n, h1', h2, h3⟩)
      · simp only [if_neg hk]
        rw [hlm y]
        constructor
        · rintro ⟨lvl, n, h1, h2, h3⟩
          exact ⟨lvl, n, List.mem_cons_of_mem _ h1, h2, h3⟩
        · rintro ⟨lvl, n, h1, h2, h3⟩
          rcases List.mem_cons.mp h1 with he | h1'
          · injection he with he1 he2
            subst he1
            rw [hn0] at h2
            injection h2 with h2
            subst h2
            exact absurd h3 hk
          · exact ⟨lvl, n, h1', h2, h3⟩

theorem removeAll_append {t : Store} :
    ∀ (A B : List Nat), removeAll t (A ++ B) =
      match removeAll t A with
      | none => none
      | some t1 => removeAll t1 B := by
  intro A
  induction A generalizing t with
  | nil => intro B; rfl
  | cons a A ih =>
    intro B
    show removeAll t (a :: (A ++ B)) = _
    simp only [removeAll]
    match detachTomb t a with
    | none => rfl
    | some t1 => exact ih B

theorem nodeAt_ge {t : Store} {j : Nat} (h : t.nodes.length ≤ j) :
    nodeAt t j = none := by
  unfold nodeAt
  rw [List.getElem?_eq_none h]

theorem nodeAt_of_isNode_false {t : Store} {id : Nat} (h : t.isNode id = false) :
    nodeAt t id = none := by
  match hm : nodeAt t id with
  | none => rfl
  | some n => rw [isNode_true hm] at h; cases h

/-- Store::remove on the live root panics: the collected list ends with the
root itself, whose parent unwrap fails. -/
theorem remove_root_none {s : Store} (hwf : WF s) : s.remove 0 = none := by
  have hr : ∃ r, nodeAt s 0 = some r := by
    have h := hwf.1
    match hr : nodeAt s 0 with
    | some r => exact ⟨r, rfl⟩
    | none => rw [hr] at h; cases h
  obtain ⟨r, hr⟩ := hr
  have hr' : s.nodes[0]? = some (some r) := nodeAt_eq_iff.mp hr
  have hlen : 0 < s.nodes.length := nodeAt_lt hr
  obtain ⟨f, hf⟩ : ∃ f, s.nodes.length = f + 1 := ⟨s.nodes.length - 1, by omega⟩
  have hch1 : ∀ c, c ∈ r.children → ∃ n, nodeAt s c = some n := by
    intro c hc
    obtain ⟨_, cn, hcn, _⟩ := wf_child_parent hwf hr hc
    exact ⟨cn, hcn⟩
  have hch2 : ∀ c, c ∈ r.children → s.nodes.length - c ≤ f := by
    intro c hc
    have := (wf_field hwf hr).2.2.2.2 c hc
    omega
  obtain ⟨L, hL, hmemL, hndL, hcbsL⟩ :=
    recRemChar hwf f r.children hch1 hch2 (children_pairwise_disjoint hwf hr)
  have h0L : (0 : Nat) ∉ L := by
    intro h0
    obtain ⟨c, hc, hcs⟩ := (hmemL 0).mp h0
    have hc0 := ((wf_field hwf hr).2.2.2.2 c hc).1
    rcases (subt_iff_anc hwf).mp hcs with he | ha
    · omega
    · have := anc_lt hwf ha; omega
  have hzL : ∀ z, z ∈ L → (∃ n, nodeAt s z = some n) ∧ z ≠ 0 := by
    intro z hz
    obtain ⟨c, hc, hcs⟩ := (hmemL z).mp hz
    refine ⟨subt_live hwf hcs (hch1 c hc), fun he => h0L (he ▸ hz)⟩
  obtain ⟨t1, ht1, hmid, _⟩ := removeAll_mid hwf L [] s (midState_nil s)
    (by simpa using hcbsL) (by simpa using hndL) hzL
  have hmid' : midState s L t1 := by simpa using hmid
  have ht1r : nodeAt t1 0 = some (filtNode r L) := hmid'.2.2.1 0 h0L r hr
  have hrpar : r.parent = none := (wf_field hwf hr).2.1 rfl
  unfold Store.remove
  rw [isNode_true hr]
  simp only [Bool.true_eq_false, if_false]
  rw [hf, recRemOne_succ, hr']
  simp only [hL]
  have happ := removeAll_append (t := s) L [0]
  simp only [ht1] at happ
  rw [happ]
  have hpar' : (filtNode r L).parent = none := hrpar
  simp only [removeAll, detachTomb, ht1r, hpar']

/-- Store::remove on a well-formed store returns a well-formed store of the
same slot count, never revives a tombstone, and tombstones a non-root
target. -/
theorem remove_pres {t : Store} (hwf : WF t) {id : Nat} {t' : Store}
    (h : t.remove id = some t') :
    WF t' ∧ t'.nodes.length = t.nodes.length ∧ Store.len t' ≤ Store.len t ∧
    (∀ j, nodeAt t j = none → nodeAt t' j = none) ∧
    (id ≠ 0 → nodeAt t' id = none) := by
  match hisn : t.isNode id with
  | false =>
    have heq : t.remove id = some t := by
      unfold Store.remove
      rw [hisn]
      rfl
    rw [heq] at h
    injection h with h
    subst h
    exact ⟨hwf, rfl, le_refl _, fun _ h => h,
      fun _ => nodeAt_of_isNode_false hisn⟩
  | true =>
    obtain ⟨n, hn⟩ := isNode_nodeAt hisn
    by_cases h0 : id = 0
    · subst h0
      rw [remove_root_none hwf] at h
      cases h
    · obtain ⟨L, s', hone, hrem, hmemL, hnd, hmid, hlen⟩ := remove_spec hwf hn h0
      rw [hrem] at h
      injection h with h
      subst h
      obtain ⟨hmlen, hmtomb, hmlive, hmdead⟩ := hmid
      have h0L : (0 : Nat) ∉ L := by
        intro hin
        rcases (subt_iff_anc hwf).mp ((hmemL 0).mp hin) with he | ha
        · exact h0 he.symm
        · have := anc_lt hwf ha; omega
      have hclosed : ∀ y, y ∈ L → ∀ m, nodeAt t y = some m →
          ∀ c, c ∈ m.children → c ∈ L := by
        intro y hy m hm c hc
        exact (hmemL c).mpr (subt_snoc ((hmemL y).mp hy) hm hc)
      refine ⟨midState_WF hwf ⟨hmlen, hmtomb, hmlive, hmdead⟩ hclosed h0L,
        hmlen, by omega, ?_, ?_⟩
      · intro j hj
        by_cases hjL : j ∈ L
        · obtain ⟨⟨m, hm⟩, _⟩ := (fun z hz => ⟨subt_live hwf ((hmemL z).mp hz) ⟨n, hn⟩,
            trivial⟩ : ∀ z, z ∈ L → (∃ m, nodeAt t z = some m) ∧ True) j hjL
          rw [hm] at hj
          cases hj
        · by_cases hjlt : j < t.nodes.length
          · exact hmdead j hjL hjlt hj
          · exact nodeAt_ge (by omega)
      · intro _
        exact nodeAt_none_of_tomb (hmtomb id ((hmemL id).mpr (Subt.refl id)))

theorem remove_some {t : Store} (hwf : WF t) {id : Nat} (h0 : id ≠ 0) :
    ∃ t1, t.remove id = some t1 := by
  match hisn : t.isNode id with
  | false =>
    refine ⟨t, ?_⟩
    unfold Store.remove
    rw [hisn]
    rfl
  | true =>
    obtain ⟨n, hn⟩ := isNode_nodeAt hisn
    obtain ⟨L, s', _, hrem, _⟩ := remove_spec hwf hn h0
    exact ⟨s', hrem⟩

/-- Folding Store::remove over a list of non-root ids preserves
well-formedness and slot count, and leaves every listed id dead. -/
theorem removeEach_chain :
    ∀ (l : List Nat) (t : Store), WF t → (∀ id, id ∈ l → id ≠ 0) →
    ∃ t', removeEach t l = some t' ∧ WF t' ∧
      t'.nodes.length = t.nodes.length ∧ Store.len t' ≤ Store.len t ∧
      (∀ j, nodeAt t j = none → nodeAt t' j = none) ∧
      (∀ id, id ∈ l → nodeAt t' id = none) := by
  intro l
  induction l with
  | nil =>
    intro t hwf _
    exact ⟨t, rfl, hwf, rfl, le_refl _, fun _ h => h, by simp⟩
  | cons a l ih =>
    intro t hwf hl0
    obtain ⟨t1, h1⟩ := remove_some hwf (hl0 a (List.mem_cons_self a l))
    obtain ⟨hwf1, hlen1, hle1, hdead1, hself1⟩ := remove_pres hwf h1
    obtain ⟨t', hrest, hwf', hlen', hle', hdead', hall'⟩ :=
      ih t1 hwf1 (fun id hid => hl0 id (List.mem_cons_of_mem a hid))
    refine ⟨t', ?_, hwf', by omega, by omega, ?_, ?_⟩
    · simp only [removeEach, h1]
      exact hrest
    · intro j hj
      exact hdead' j (hdead1 j hj)
    · intro id hid
      rcases List.mem_cons.mp hid with rfl | hid'
      · exact hdead' id (hself1 (hl0 id (List.mem_cons_self id l)))
      · exact hall' id hid'

/-- Store::retain on a well-formed store succeeds, preserving
well-formedness and slot count. -/
theorem retain_pres {s : Store} (hwf : WF s) (keep : Node → Bool) :
    ∃ s', s.retain keep = some s' ∧ WF s' ∧
      s'.nodes.length = s.nodes.length ∧ Store.len s' ≤ Store.len s := by
  obtain ⟨V, hV, hVmem⟩ := recurse_root_spec hwf
  obtain ⟨l, hl, hlm⟩ :=
    @collectFails_spec s keep V (fun y lvl h => ((hVmem y).mp ⟨lvl, h⟩).1)
  have hl0 : ∀ id, id ∈ l → id ≠ 0 := by
    intro id hid
    obtain ⟨lvl, n, h1, _, _⟩ := (hlm id).mp hid
    exact ((hVmem id).mp ⟨lvl, h1⟩).2
  obtain ⟨s', hre, hwf', hlen', hle', _, _⟩ := removeEach_chain l s hwf hl0
  refine ⟨s', ?_, hwf', hlen', hle'⟩
  unfold Store.retain
  rw [hV]
  simp only [hl]
  exact hre

/-- Store::retain with the always-true predicate removes nothing: the
result is the store itself. -/
theorem retain_true_id {s : Store} (hwf : WF s) :
    s.retain (fun _ => true) = some s := by
  obtain ⟨V, hV, hVmem⟩ := recurse_root_spec hwf
  obtain ⟨l, hl, hlm⟩ := @collectFails_spec s (fun _ => true) V
    (fun y lvl h => ((hVmem y).mp ⟨lvl, h⟩).1)
  have hnil : l = [] := by
    rw [List.eq_nil_iff_forall_not_mem]
    intro y hy
    obtain ⟨_, _, _, _, h3⟩ := (hlm y).mp hy
    cases h3
  unfold Store.retain
  rw [hV]
  simp only [hl, hnil]
  rfl

theorem store_len_one {t : Store} (h0 : (nodeAt t 0).isSome = true)
    (h : ∀ j, 0 < j → j < t.nodes.length → nodeAt t j = none) :
    Store.len t = 1 := by
  match ht : t.nodes with
  | [] =>
    unfold nodeAt at h0
    rw [ht, List.getElem?_nil] at h0
    exact absurd h0 Bool.false_ne_true
  | none :: tail =>
    unfold nodeAt at h0
    rw [ht, List.getElem?_cons_zero] at h0
    exact absurd h0 Bool.false_ne_true
  | some r :: tail =>
    unfold Store.len
    rw [ht, List.countP_cons]
    have htail : tail.countP (fun n => n.isSome) = 0 := by
      rw [List.countP_eq_zero]
      intro x hx
      obtain ⟨k, hk, hget⟩ := List.mem_iff_getElem.mp hx
      have hklen : k + 1 < t.nodes.length := by
        rw [ht]; simpa using hk
      have hnone := h (k + 1) (by omega) hklen
      unfold nodeAt at hnone
      rw [ht, List.getElem?_cons_succ, List.getElem?_eq_getElem hk, hget] at hnone
      intro hcon
      obtain ⟨m, hm⟩ := Option.isSome_iff_exists.mp hcon
      rw [hm] at hnone
      exact Option.noConfusion hnone
    simp [htail]

/-- Store::retain with the always-false predicate removes every non-root
node: only the root sentinel stays live. -/
theorem retain_false_one {s : Store} (hwf : WF s) :
    ∃ s', s.retain (fun _ => false) = some s' ∧ Store.len s' = 1 ∧ WF s' := by
  obtain ⟨V, hV, hVmem⟩ := recurse_root_spec hwf
  obtain ⟨l, hl, hlm⟩ := @collectFails_spec s (fun _ => false) V
    (fun y lvl h => ((hVmem y).mp ⟨lvl, h⟩).1)
  have hmem : ∀ y, y ∈ l ↔ ((∃ n, nodeAt s y = some n) ∧ y ≠ 0) := by
    intro y
    rw [hlm y]
    constructor
    · rintro ⟨lvl, n, h1, _, _⟩
      exact (hVmem y).mp ⟨lvl, h1⟩
    · intro hy
      obtain ⟨lvl, h1⟩ := (hVmem y).mpr hy
      obtain ⟨n, hn⟩ := hy.1
      exact ⟨lvl, n, h1, hn, rfl⟩
  have hl0 : ∀ id, id ∈ l → id ≠ 0 := fun id hid => ((hmem id).mp hid).2
  obtain ⟨s', hre, hwf', hlen', hle', hdead', hall'⟩ := removeEach_chain l s hwf hl0
  refine ⟨s', ?_, ?_, hwf'⟩
  · unfold Store.retain
    rw [hV]
    simp only [hl]
    exact hre
  · refine store_len_one hwf'.1 ?_
    intro j hj hjlt
    by_cases hlive : ∃ n, nodeAt s j = some n
    · exact hall' j ((hmem j).mpr ⟨hlive, by omega⟩)
    · have : nodeAt s j = none := by
        match hm : nodeAt s j with
        | none => rfl
        | some n => exact absurd ⟨n, hm⟩ hlive
      exact hdead' j this

/-! ## Counting live descendants (for the length arithmetic of Store::remove) -/

/-- Fueled test: does following parent links upward from j reach a? -/
def hasAncB (s : Store) : Nat → Nat → Nat → Bool
  | 0, _, _ => false
  | fuel + 1, j, a =>
    match parentOf s j with
    | none => false
    | some p => decide (p = a) || hasAncB s fuel p a

/-- y is a live strict descendant of id (the slot count always suffices as
fuel, since parent links strictly decrease). -/
def isDescB (s : Store) (id y : Nat) : Bool :=
  (nodeAt s y).isSome && hasAncB s s.nodes.length y id

/-- The number of live strict descendants of id. -/
def descCount (s : Store) (id : Nat) : Nat :=
  ((List.range s.nodes.length).filter (fun y => isDescB s id y)).length

theorem hasAncB_succ (s : Store) (f j a : Nat) :
    hasAncB s (f + 1) j a = (match parentOf s j with
      | none => false
      | some q => decide (q = a) || hasAncB s f q a) := rfl

theorem hasAncB_sound {s : Store} :
    ∀ {fuel j a : Nat}, hasAncB s fuel j a = true → Anc s a j := by
  intro fuel
  induction fuel with
  | zero => intro j a h; exact absurd h Bool.false_ne_true
  | succ f ih =>
    intro j a h
    rw [hasAncB_succ] at h
    match hp : parentOf s j with
    | none =>
      rw [hp] at h
      exact absurd h Bool.false_ne_true
    | some p =>
      rw [hp] at h
      have h' : (decide (p = a) || hasAncB s f p a) = true := h
      rw [Bool.or_eq_true] at h'
      rcases h' with h' | h'
      · exact (of_decide_eq_true h') ▸ Anc.base hp
      · exact Anc.step hp (ih h')

theorem hasAncB_complete {s : Store} (hwf : WF s) :
    ∀ j a fuel, Anc s a j → j ≤ fuel → hasAncB s fuel j a = true := by
  intro j
  induction j using Nat.strong_induction_on with
  | _ j ihj =>
    intro a fuel ha hle
    have hj1 : 0 < j := by
      cases ha with
      | base hp => exact lt_of_le_of_lt (Nat.zero_le _) (wf_parent_lt hwf hp)
      | step hp _ => exact lt_of_le_of_lt (Nat.zero_le _) (wf_parent_lt hwf hp)
    match fuel, hle with
    | 0, hle => exact absurd (Nat.lt_of_lt_of_le hj1 hle) (lt_irrefl 0)
    | f + 1, hle =>
      rw [hasAncB_succ]
      cases ha with
      | base hp =>
        rw [hp]
        show (decide (a = a) || hasAncB s f a a) = true
        simp
      | @step _ p hp ha' =>
        rw [hp]
        show (decide (p = a) || hasAncB s f p a) = true
        rw [Bool.or_eq_true]
        refine Or.inr ?_
        have hplt := wf_parent_lt hwf hp
        exact ihj p hplt a f ha' (by omega)

/-- The collected removal list of a live node has exactly
descCount + 1 entries: its live strict descendants plus itself. -/
theorem subtree_count {s : Store} (hwf : WF s) {id : Nat} {n : Node}
    (hid : nodeAt s id = some n) {L : List Nat}
    (hmem : ∀ y, y ∈ L ↔ Subt s id y) (hnd : L.Nodup) :
    L.length = descCount s id + 1 := by
  have hDnd : ((List.range s.nodes.length).filter
      (fun y => isDescB s id y)).Nodup :=
    List.Nodup.filter _ (List.nodup_range _)
  have hidD : id ∉ (List.range s.nodes.length).filter
      (fun y => isDescB s id y) := by
    intro hin
    have hd : isDescB s id id = true := (List.mem_filter.mp hin).2
    unfold isDescB at hd
    rw [Bool.and_eq_true] at hd
    have := anc_lt hwf (hasAncB_sound hd.2)
    omega
  have hMnd : (id :: (List.range s.nodes.length).filter
      (fun y => isDescB s id y)).Nodup := List.nodup_cons.mpr ⟨hidD, hDnd⟩
  have hMmem : ∀ y, y ∈ L ↔
      y ∈ id :: (List.range s.nodes.length).filter (fun y => isDescB s id y) := by
    intro y
    rw [hmem y, List.mem_cons, List.mem_filter, List.mem_range]
    constructor
    · intro hsub
      rcases (subt_iff_anc hwf).mp hsub with he | ha
      · exact Or.inl he
      · obtain ⟨m, hm⟩ := subt_live hwf hsub ⟨n, hid⟩
        have hylt : y < s.nodes.length := nodeAt_lt hm
        refine Or.inr ⟨hylt, ?_⟩
        unfold isDescB
        rw [Bool.and_eq_true]
        constructor
        · rw [hm]; rfl
        · exact hasAncB_complete hwf y id s.nodes.length ha (by omega)
    · intro hy
      rcases hy with he | ⟨_, hd⟩
      · rw [he]; exact Subt.refl id
      · unfold isDescB at hd
        rw [Bool.and_eq_true] at hd
        exact (subt_iff_anc hwf).mpr (Or.inr (hasAncB_sound hd.2))
  have hperm : L.Perm
      (id :: (List.range s.nodes.length).filter (fun y => isDescB s id y)) :=
    (List.perm_ext_iff_of_nodup hnd hMnd).mpr hMmem
  have := hperm.length_eq
  rw [this]
  unfold descCount
  simp [Nat.add_comm]

/-! ## The public arena operations as a transition system -/

/-- dom.rs: Dom::retain - delegate to the store's retain; the cursor is
untouched. -/
def Dom.retain (d : Dom) (keep : Node → Bool) : Option Dom :=
  (d.store.retain keep).map (fun s' => ⟨s', d.current⟩)

/-- The arena-mutating public operations of dom.rs Store: insertion under a
parent (Store::new_node_with_parent), subtree removal (Store::remove) and
predicate-based retain (Store::retain). -/
inductive Op where
  | insert (parent : Nat)
  | remOp (id : Nat)
  | retOp (keep : Node → Bool)

/-- One operation on the arena.  new_node_with_parent's Err(()) for an
invalid parent leaves the arena unchanged (the error is returned to the
caller); none is a Rust panic inside remove or retain. -/
def applyOp (s : Store) : Op → Option Store
  | .insert parent =>
    match s.newNodeWithParent parent with
    | none => some s
    | some (s', _) => some s'
  | .remOp id => s.remove id
  | .retOp keep => s.retain keep

/-- A sequence of operations, stopping at the first panic. -/
def applyOps : Store → List Op → Option Store
  | s, [] => some s
  | s, op :: rest =>
    match applyOp s op with
    | none => none
    | some s' => applyOps s' rest

/-- The claimed invariant: every live node except the root has exactly one
live parent whose child list holds its id exactly once, and its id is in no
other live node's child list. -/
def claimInv (s : Store) : Prop :=
  ∀ c cn, nodeAt s c = some cn → c ≠ 0 →
    ∃ p pn, cn.parent = some p ∧ nodeAt s p = some pn ∧
      pn.children.count c = 1 ∧
      ∀ q qn, nodeAt s q = some qn → q ≠ p → qn.children.count c = 0

/-- Well-formedness implies the claimed parent/child-list invariant. -/
theorem wf_claimInv {s : Store} (hwf : WF s) : claimInv s := by
  intro c cn hc hc0
  obtain ⟨p, hp, pn, hpn, hmem⟩ := wf_parent_child hwf hc hc0
  refine ⟨p, pn, hp, hpn, ?_, ?_⟩
  · have hnd := (wf_field hwf hpn).2.2.2.1
    exact List.count_eq_one_of_mem hnd hmem
  · intro q qn hq hqp
    rw [List.count_eq_zero]
    intro hcq
    obtain ⟨_, cn', hcn', hpar'⟩ := wf_child_parent hwf hq hcq
    rw [hc] at hcn'
    injection hcn' with hcn'
    rw [← hcn', hp] at hpar'
    injection hpar' with hpar'
    exact hqp hpar'.symm

/-- Every public arena operation preserves well-formedness. -/
theorem applyOp_WF {s : Store} (hwf : WF s) {op : Op} {s' : Store}
    (h : applyOp s op = some s') : WF s' := by
  match op with
  | .insert parent =>
    have h' : (match s.newNodeWithParent parent with
        | none => some s
        | some (s1, _) => some s1) = some s' := h
    match hins : s.newNodeWithParent parent with
    | none =>
      rw [hins] at h'
      injection h' with h'
      rw [← h']
      exact hwf
    | some (s1, id) =>
      rw [hins] at h'
      injection h' with h'
      rw [← h']
      exact (insert_WF hwf hins).1
  | .remOp id =>
    have h' : s.remove id = some s' := h
    exact (remove_pres hwf h').1
  | .retOp keep =>
    have h' : s.retain keep = some s' := h
    obtain ⟨s1, hre, hwf1, _, _⟩ := retain_pres hwf keep
    rw [hre] at h'
    injection h' with h'
    rw [← h']
    exact hwf1

theorem applyOps_WF : ∀ (ops : List Op) (s : Store), WF s →
    ∀ {t : Store}, applyOps s ops = some t → WF t := by
  intro ops
  induction ops with
  | nil =>
    intro s hwf t h
    injection h with h
    rw [← h]
    exact hwf
  | cons op rest ih =>
    intro s hwf t h
    unfold applyOps at h
    match hop : applyOp s op with
    | none => rw [hop] at h; cases h
    | some s1 =>
      rw [hop] at h
      exact ih s1 (applyOp_WF hwf hop) h

/-! ## The claims C7 - C10 -/

/-- C7: after every sequence of public arena operations starting from the
fresh arena - insertion under an existing parent, subtree removal,
predicate-based retain - that completes without a panic, every live node
except the root has exactly one parent whose child list contains that
node's id exactly once, and no id appears in two live parents' child
lists. -/
theorem c7_arena_parent_invariant (ops : List Op) (s : Store)
    (h : applyOps Store.new ops = some s) : claimInv s :=
  wf_claimInv (applyOps_WF ops Store.new wf_new h)

def c7ops : List Op :=
  [.insert 0, .insert 1, .insert 1, .remOp 2, .retOp (fun _ => true)]

theorem c7_arena_parent_invariant_witness :
    claimInv ((applyOps Store.new c7ops).getD Store.new) :=
  c7_arena_parent_invariant c7ops ((applyOps Store.new c7ops).getD Store.new) rfl

/-- C8: node ids are assigned monotonically and never reused: on a
well-formed store, after removing the live non-root id n, a successful
insertion returns id = the slot count - one past every id ever issued
(slots are never shrunk or recycled), hence strictly greater than n and
than every live id of the original store. -/
theorem c8_ids_never_reused {s : Store} (hwf : WF s) {n : Nat}
    (hn : s.isNode n = true) {s1 : Store}
    (hrem : s.remove n = some s1) {parent : Nat} {s2 : Store} {id : Nat}
    (hins : s1.newNodeWithParent parent = some (s2, id)) :
    id = s.nodes.length ∧ n < id ∧
      ∀ j m, nodeAt s j = some m → j < id := by
  obtain ⟨hwf1, hlen1, _, _, _⟩ := remove_pres hwf hrem
  obtain ⟨_, hid, _⟩ := insert_WF hwf1 hins
  obtain ⟨nn, hnn⟩ := isNode_nodeAt hn
  have hnlt : n < s.nodes.length := nodeAt_lt hnn
  refine ⟨by omega, by omega, ?_⟩
  intro j m hm
  have := nodeAt_lt hm
  omega

def c8store : Store :=
  ⟨[some ⟨0, none, [1], none⟩, some ⟨1, some 0, [], none⟩]⟩

def c8s1 : Store := (c8store.remove 1).getD Store.new

def c8pr : Store × Nat := (c8s1.newNodeWithParent 0).getD (Store.new, 0)

theorem c8_ids_never_reused_witness :
    c8pr.2 = c8store.nodes.length ∧ 1 < c8pr.2 ∧
      ∀ j m, nodeAt c8store j = some m → j < c8pr.2 :=
  @c8_ids_never_reused c8store (by decide) 1 (by decide)
    c8s1 rfl 0 c8pr.1 c8pr.2 rfl

/-- C9 (counterexample): the root of the fresh arena is a live node with no
live descendants, yet Store::remove(0) hits the parent unwrap (a panic)
instead of producing a store whose live count dropped by 1. -/
theorem c9_remove_root_panics :
    Store.new.isNode 0 = true ∧ descCount Store.new 0 = 0 ∧
      Store.new.remove 0 = none := by decide

/-- C9 (amended): for every live NON-ROOT id with k live descendants on a
well-formed store, remove(id) succeeds and decreases the live count
length() by exactly k+1 - the entire subtree goes, regardless of the
descendants' contents.  The root, though a live node, panics instead, so
the claim's "every live node" must exclude the root. -/
theorem c9_remove_drops_subtree_count {s : Store} (hwf : WF s) {id : Nat}
    {n : Node} (hid : nodeAt s id = some n) (h0 : id ≠ 0) :
    ∃ s', s.remove id = some s' ∧
      Store.len s = Store.len s' + (descCount s id + 1) := by
  obtain ⟨L, s', hone, hrem, hmem, hnd, hmid, hlen⟩ := remove_spec hwf hid h0
  have hc := subtree_count hwf hid hmem hnd
  exact ⟨s', hrem, by omega⟩

def c9store : Store :=
  ⟨[some ⟨0, none, [1], none⟩, some ⟨1, some 0, [2], none⟩,
    some ⟨2, some 1, [], none⟩]⟩

theorem c9_remove_drops_subtree_count_witness :
    ∃ s', c9store.remove 1 = some s' ∧
      Store.len c9store = Store.len s' + (descCount c9store 1 + 1) :=
  @c9_remove_drops_subtree_count c9store (by decide) 1 ⟨1, some 0, [2], none⟩
    rfl (by decide)

/-- C10: on every well-formed tree state, retain with the always-true
predicate leaves the arena unchanged (so length() is unchanged), and
retain with the always-false predicate keeps exactly the root sentinel
live - the store-level length() becomes 1 and the owner-level Dom::len,
which excludes the sentinel, becomes 0. -/
theorem c10_retain_extremes {d : Dom} (hwf : WF d.store) :
    d.retain (fun _ => true) = some d ∧
      ∃ d', d.retain (fun _ => false) = some d' ∧
        Store.len d'.store = 1 ∧ Dom.len d' = 0 := by
  constructor
  · unfold Dom.retain
    rw [retain_true_id hwf]
    rfl
  · obtain ⟨s', hre, hlen1, _⟩ := retain_false_one hwf
    refine ⟨⟨s', d.current⟩, ?_, hlen1, ?_⟩
    · unfold Dom.retain
      rw [hre]
      rfl
    · show Store.len s' - 1 = 0
      omega

theorem c10_retain_extremes_witness :
    Dom.new.retain (fun _ => true) = some Dom.new ∧
      ∃ d', Dom.new.retain (fun _ => false) = some d' ∧
        Store.len d'.store = 1 ∧ Dom.len d' = 0 :=
  c10_retain_extremes (by decide)
